import Mathlib

/-
Verification of the circular-statistics periodicity engine:
cluster-robust Schuster tests, MFPA scan, A1b consistency labels,
elevated-interval detection and merging.

Real-valued (float) computations of the source are embedded over ℝ;
purely discrete/rational computations (A1b labels, interval overlap
classification, bin merging) are embedded over ℚ and ℕ so that concrete
instances can be settled by evaluation.
-/

noncomputable section

/-- Python/numpy floating modulus `x % y` for reals: `x - y * ⌊x / y⌋`.
The result has the sign of the divisor, matching numpy semantics. -/
def realMod (x y : ℝ) : ℝ := x - y * ⌊x / y⌋

/-- `compute_phases` from case-a1-schuster.py: phase angles in radians,
`2π * ((t % T) / T)` for each event time. -/
def computePhases (times : List ℝ) (T : ℝ) : List ℝ :=
  times.map (fun t => 2 * Real.pi * (realMod t T / T))

/-- `_compute_d2` from case-a1-schuster.py: `(cosSum² + sinSum²) / n`, with the
`n = 0` case guarded to return `0`. -/
def computeD2 (cosSum sinSum : ℝ) (n : ℕ) : ℝ :=
  if n = 0 then 0 else (cosSum ^ 2 + sinSum ^ 2) / n

/-- `_standard_p_from_d2` from case-a1-schuster.py: `exp (-D²)`. -/
def standardPFromD2 (d2 : ℝ) : ℝ := Real.exp (-d2)

/-- Loop body of `assign_clusters`: walks the remaining times carrying the
previous time and the current cluster id; the id is incremented exactly when
the inter-event gap reaches the threshold `dt`. -/
def clusterIdsAux (dt : ℝ) : ℝ → ℕ → List ℝ → List ℕ
  | _, _, [] => []
  | prev, cur, t :: rest =>
      let cur2 := if dt ≤ t - prev then cur + 1 else cur
      cur2 :: clusterIdsAux dt t cur2 rest

/-- `assign_clusters` from case-a1-schuster.py: the first event gets id 0 and a
new cluster begins whenever `times[i] - times[i-1] >= dt_cluster`. -/
def assignClusters (times : List ℝ) (dt : ℝ) : List ℕ :=
  match times with
  | [] => []
  | t :: rest => 0 :: clusterIdsAux dt t 0 rest

/-- Two-argument arctangent as used by `np.arctan2(y, x)`: the argument of the
complex number `x + i y`, with `atan2 0 0 = 0` and range `(-π, π]`. -/
def atan2 (y x : ℝ) : ℝ := Complex.arg ⟨x, y⟩

/-- Per-cluster unit vectors from `schuster_single_period`: for each cluster id
below `m`, take the member phases, average cos and sin, and emit the unit
vector at the `atan2` mean-resultant direction. -/
def clusterUnits (phases : List ℝ) (ids : List ℕ) (m : ℕ) : List (ℝ × ℝ) :=
  (List.range m).map (fun cid =>
    let cp := ((ids.zip phases).filter (fun p => p.1 == cid)).map Prod.snd
    let mc := (cp.map Real.cos).sum / cp.length
    let ms := (cp.map Real.sin).sum / cp.length
    let a := atan2 ms mc
    (Real.cos a, Real.sin a))

/-- Result record of `schuster_single_period`. -/
structure SchusterResult where
  n_events : ℕ
  n_clusters : ℕ
  D2 : ℝ
  p_standard : ℝ
  p_cluster_robust : ℝ

/-- `schuster_single_period` from case-a1-schuster.py: the empty catalog
returns the degenerate sentinel `(0, 0, 0.0, 1.0, 1.0)`; otherwise both the
standard test (all events vote) and the cluster-robust test (one unit vector
per temporal cluster) are computed, with `p = exp (-D²)` for each. -/
def schusterSinglePeriod (times : List ℝ) (T dt : ℝ) : SchusterResult :=
  if times.length = 0 then ⟨0, 0, 0, 1, 1⟩
  else
    let n := times.length
    let phases := computePhases times T
    let cosSum := (phases.map Real.cos).sum
    let sinSum := (phases.map Real.sin).sum
    let d2std := computeD2 cosSum sinSum n
    let ids := assignClusters times dt
    let m := ids.getLast?.getD 0 + 1
    let units := clusterUnits phases ids m
    let cosSumC := (units.map Prod.fst).sum
    let sinSumC := (units.map Prod.snd).sum
    let d2cr := computeD2 cosSumC sinSumC m
    ⟨n, m, d2std, standardPFromD2 d2std, standardPFromD2 d2cr⟩

/-- `mfpa_power` from case-a1-mfpa.py: `|Σ exp(i φ)|² / n`, and `0` for the
empty phase array. -/
def mfpaPower (phases : List ℝ) : ℝ :=
  if phases.length = 0 then 0
  else
    let f := (phases.map (fun φ => Complex.exp (φ * Complex.I))).sum
    (f.re ^ 2 + f.im ^ 2) / phases.length

/-- `compute_rayleigh` from case-b1-analysis.py: mean resultant length `R`,
Rayleigh p-value `exp (-n R²)`, and mean phase fraction. The source has no
empty-input guard: `np.mean` of an empty float array is NaN, which then
propagates to all three returned values. IEEE NaN has no counterpart in ℝ, so
the embedding returns `none` on exactly that path (the empty phase array is
the only input on which any intermediate is NaN) and `some` of the three
values otherwise. -/
def computeRayleigh (phases : List ℝ) : Option (ℝ × ℝ × ℝ) :=
  if phases.length = 0 then none
  else
    let n := phases.length
    let angles := phases.map (fun p => 2 * Real.pi * p)
    let meanCos := (angles.map Real.cos).sum / n
    let meanSin := (angles.map Real.sin).sum / n
    let R := Real.sqrt (meanCos ^ 2 + meanSin ^ 2)
    let p := Real.exp (-(n * R ^ 2))
    let meanAngle := atan2 meanSin meanCos
    some (R, p, realMod (meanAngle / (2 * Real.pi)) 1)

end

/-- Python `int(x)` truncation toward zero, as an integer. -/
def pyTrunc {α : Type} [LinearOrderedField α] [FloorRing α] (x : α) : ℤ :=
  if 0 ≤ x then ⌊x⌋ else ⌈x⌉

/-- The A1b phase intervals `A1B_INTERVALS` from case-a1-mfpa.py. -/
def a1bIntervals {α : Type} [LinearOrderedField α] : List (α × α) :=
  [(0.1875, 0.25), (0.625, 0.656), (0.875, 0.917)]

/-- `max(1, int(year_days / period_days))` from `a1b_consistency_label`. -/
def nHarmonics {α : Type} [LinearOrderedField α] [FloorRing α] (T : α) : ℕ :=
  (max 1 (pyTrunc (365.25 / T))).toNat

/-- Predicted harmonic peak phases from `a1b_consistency_label`:
`(k * period_days / year_days) % 1.0` for `k = 0 .. n_harmonics`. -/
def predictedPhases {α : Type} [LinearOrderedField α] [FloorRing α] (T : α) : List α :=
  (List.range (nHarmonics T + 1)).map (fun (k : ℕ) => Int.fract ((k : α) * T / 365.25))

/-- The label-building tail of `a1b_consistency_label`: given the per-interval
hit flags, compute `hit_indices` (1-based) and return the label string through
the if/elif chain of the source. `hitCount` is the number of `true` entries,
matching the source `sum(hits)`. -/
def labelFromHits (hits : List Bool) : String :=
  let hitIndices := (hits.enum.filter (fun p => p.2)).map (fun p => p.1 + 1)
  let hitCount := hitIndices.length
  if hitCount = 0 then ("inconsistent with all A1b intervals")
  else if hitCount = 1 ∧ hitIndices = [1] then ("consistent with interval 1 only")
  else if hitCount = 2 ∧ hitIndices = [1, 2] then ("consistent with intervals 1+2")
  else if hitCount = 2 ∧ hitIndices = [1, 3] then ("consistent with intervals 1+3 (6-month)")
  else if hitCount = 2 ∧ hitIndices = [2, 3] then ("consistent with intervals 2+3")
  else if hitCount = 3 then ("consistent with all three intervals (4-month if applicable)")
  else ("consistent with intervals ") ++ String.intercalate ("+") (hitIndices.map toString)

/-- `a1b_consistency_label` from case-a1-mfpa.py (with the default interval
argument): `hits[idx]` is true iff some predicted phase lies in interval
`idx`, translating the double loop over predicted phases and intervals. -/
def a1bConsistencyLabel {α : Type} [LinearOrderedField α] [FloorRing α] (T : α) : String :=
  let predicted := predictedPhases T
  let hits := (a1bIntervals : List (α × α)).map
    (fun iv => predicted.any (fun p => decide (iv.1 ≤ p ∧ p ≤ iv.2)))
  labelFromHits hits

/-- The A1b baseline intervals `A1B_BASELINE_INTERVALS` from case-a4-sub-b.py,
as `(id, (phase_start, phase_end))`. -/
def a1bBaselineIntervals : List (ℕ × ℚ × ℚ) :=
  [(1, 0.1875, 0.25), (2, 0.625, 0.656), (3, 0.875, 0.917)]

/-- `overlap_fraction` from case-a4-sub-b.py: overlap length of A with B,
divided by the width of A; `0` when A has non-positive width. -/
def overlapFraction (aStart aEnd bStart bEnd : ℚ) : ℚ :=
  if aEnd - aStart ≤ 0 then 0
  else max 0 (min aEnd bEnd - max aStart bStart) / (aEnd - aStart)

/-- Loop of `classify_interval`: return the match label for the first baseline
whose overlap fraction exceeds 0.5, in input order. -/
def classifyGo (ps pe : ℚ) : List (ℕ × ℚ × ℚ) → String
  | [] => ("new interval")
  | b :: rest =>
      if 1 / 2 < overlapFraction ps pe b.2.1 b.2.2
      then ("matches interval ") ++ toString b.1
      else classifyGo ps pe rest

/-- `classify_interval` from case-a4-sub-b.py. -/
def classifyInterval (ps pe : ℚ) : String :=
  classifyGo ps pe a1bBaselineIntervals

/-- Loop of `merge_adjacent_bins`: carries the start and the previous index of
the open range, closing it when the next index is not `prev + 1`. -/
def mergeGo (start prev : ℕ) : List ℕ → List (ℕ × ℕ)
  | [] => [(start, prev)]
  | idx :: rest =>
      if idx = prev + 1 then mergeGo start idx rest
      else (start, prev) :: mergeGo idx idx rest

/-- `merge_adjacent_bins` from case-a4-sub-b.py: merge consecutive bin indices
into inclusive `(start, end)` ranges. The bin-count argument `k` is kept from
the source signature; the source never reads it. -/
def mergeAdjacentBins (elevated : List ℕ) (_k : ℕ) : List (ℕ × ℕ) :=
  match elevated with
  | [] => []
  | x :: xs => mergeGo x x xs

/-- Expand inclusive ranges back into the sorted list of member indices. -/
def expandRanges (rs : List (ℕ × ℕ)) : List ℕ :=
  (rs.map (fun r => List.range' r.1 (r.2 + 1 - r.1))).flatten

/-- State machine of the `while` loop of `find_elevated_intervals` from
case-b1-analysis.py: `i` is the current bin index and the optional state holds
the start of the currently open elevated run; runs are emitted with exclusive
end. -/
def runsGo : ℕ → Option ℕ → List Bool → List (ℕ × ℕ)
  | _, none, [] => []
  | i, some s, [] => [(s, i)]
  | i, none, b :: rest =>
      if b then runsGo (i + 1) (some i) rest else runsGo (i + 1) none rest
  | i, some s, b :: rest =>
      if b then runsGo (i + 1) (some s) rest
      else (s, i) :: runsGo (i + 1) none rest

/-- Number of leading `true` entries of a mask. -/
def countLeadTrue : List Bool → ℕ
  | [] => 0
  | false :: _ => 0
  | true :: rest => countLeadTrue rest + 1

/-- Mask lookup with `false` beyond the end. -/
def maskAt (M : List Bool) (i : ℕ) : Bool := M.getD i false

/-- Well-formed output shape of `merge_adjacent_bins`: every range is
nonempty (`start ≤ end`) and consecutive ranges are separated by a gap of at
least one missing index. -/
def GappedRanges (rs : List (ℕ × ℕ)) : Prop :=
  (∀ r ∈ rs, r.1 ≤ r.2) ∧ List.Chain' (fun a b => a.2 + 1 < b.1) rs

/-- Maximal elevated run with exclusive end `e` in a mask: nonempty, within
bounds, all member bins elevated, and not extendable on either side. Bins are
adjacent only linearly; position `k-1` is never adjacent to position `0`. -/
def IsMaxRunExcl (M : List Bool) (s e : ℕ) : Prop :=
  s < e ∧ e ≤ M.length ∧ (∀ i, s ≤ i → i < e → maskAt M i = true) ∧
    (s = 0 ∨ maskAt M (s - 1) = false) ∧ (e = M.length ∨ maskAt M e = false)

/-- Maximal elevated run with inclusive end `e` for a predicate on bin indices
`0 .. k-1`: nonempty, within bounds, all member bins elevated, and not
extendable on either side. Adjacency is linear only (no wrap-around). -/
def IsMaxRunIncl (P : ℕ → Prop) (k s e : ℕ) : Prop :=
  s ≤ e ∧ e < k ∧ (∀ i, s ≤ i → i ≤ e → P i) ∧
    (s = 0 ∨ ¬P (s - 1)) ∧ (e + 1 = k ∨ ¬P (e + 1))

/-- Spec-side set of predicted harmonic peak phases exactly as the claim
states it: `(k * period / 365.25) mod 1` for `k = 0 .. floor(365.25 / period)`. -/
def specPhasesFloor (T : ℚ) : List ℚ :=
  (List.range (⌊(365.25 : ℚ) / T⌋.toNat + 1)).map
    (fun (k : ℕ) => Int.fract ((k : ℚ) * T / 365.25))

/-- Spec-side set of predicted harmonic peak phases with the amended harmonic
range `k = 0 .. max 1 (floor(365.25 / period))`. -/
def specPhasesAmended (T : ℚ) : List ℚ :=
  (List.range ((max 1 ⌊(365.25 : ℚ) / T⌋).toNat + 1)).map
    (fun (k : ℕ) => Int.fract ((k : ℚ) * T / 365.25))

/-- Whether some phase in `ps` lies in the `i`-th A1b interval (0-based). -/
def intervalHit (ps : List ℚ) (i : ℕ) : Bool :=
  ps.any (fun p =>
    decide (((a1bIntervals : List (ℚ × ℚ)).getD i (0, 0)).1 ≤ p ∧
      p ≤ ((a1bIntervals : List (ℚ × ℚ)).getD i (0, 0)).2))

/-- Spec-side naming table: for each combination of the three interval hit
flags, the label that names exactly the hit intervals, following the label
set enumerated in the spec (including the generic fallback combinations). -/
def labelOfHits : Bool → Bool → Bool → String
  | false, false, false => ("inconsistent with all A1b intervals")
  | true, false, false => ("consistent with interval 1 only")
  | true, true, false => ("consistent with intervals 1+2")
  | true, false, true => ("consistent with intervals 1+3 (6-month)")
  | false, true, true => ("consistent with intervals 2+3")
  | true, true, true => ("consistent with all three intervals (4-month if applicable)")
  | false, true, false => ("consistent with intervals 2")
  | false, false, true => ("consistent with intervals 3")

/-- All events that `assign_clusters` puts in one temporal cluster have the
same phase angle for the test period (the hypothesis of the cluster-robust
invariant claim). -/
def PhaseIdenticalWithinClusters (times : List ℝ) (T dt : ℝ) : Prop :=
  ∀ i j, i < times.length → j < times.length →
    (assignClusters times dt).getD i 0 = (assignClusters times dt).getD j 0 →
    (computePhases times T).getD i 0 = (computePhases times T).getD j 0

noncomputable section

/-- `identify_elevated_bins` from case-a4-sub-b.py: indices whose observed
count strictly exceeds `E + sqrt E`. -/
def identifyElevatedBins (obs : List ℝ) (expectedPerBin : ℝ) : List ℕ :=
  (List.range obs.length).filter
    (fun i => decide (expectedPerBin + Real.sqrt expectedPerBin < obs.getD i 0))

/-- Python 3 `round` to the nearest integer with ties to even. -/
def pyRoundHalfEven (x : ℝ) : ℤ :=
  if Int.fract x < 1 / 2 then ⌊x⌋
  else if 1 / 2 < Int.fract x then ⌊x⌋ + 1
  else if Even ⌊x⌋ then ⌊x⌋ else ⌊x⌋ + 1

/-- Python `round(x, 6)`. -/
def pyRound6 (x : ℝ) : ℝ := (pyRoundHalfEven (x * 10 ^ 6) : ℝ) / 10 ^ 6

/-- One returned interval record of `find_elevated_intervals`. -/
structure ElevatedInterval where
  phase_start : ℝ
  phase_end : ℝ
  mean_phase : ℝ

/-- The elevated-bin mask of `find_elevated_intervals`: bin `i` (for `i < k`)
is elevated iff `bin_counts[i] > E + sqrt E` with `E = n / k`. The source
loops over `i < k`; `take k` restricts the mask to exactly those bins. -/
def elevatedMaskB1 (binCounts : List ℝ) (k n : ℕ) : List Bool :=
  (binCounts.take k).map
    (fun c => decide ((n : ℝ) / k + Real.sqrt ((n : ℝ) / k) < c))

/-- `find_elevated_intervals` from case-b1-analysis.py: contiguous elevated
runs converted to phase intervals, each rounded to 6 decimal places. -/
def findElevatedIntervals (binCounts : List ℝ) (k n : ℕ) : List ElevatedInterval :=
  (runsGo 0 none (elevatedMaskB1 binCounts k n)).map (fun r =>
    let ps := (r.1 : ℝ) * (1 / (k : ℝ))
    let pe := (r.2 : ℝ) * (1 / (k : ℝ))
    ⟨pyRound6 ps, pyRound6 pe, pyRound6 ((ps + pe) / 2)⟩)

/-- `np.logspace(log10 lo, log10 hi, num)`: `num` points whose base-10
logarithms are evenly spaced from `log10 lo` to `log10 hi`. -/
def logspace10 (lo hi : ℝ) (num : ℕ) : List ℝ :=
  (List.range num).map (fun (j : ℕ) =>
    (10 : ℝ) ^ (Real.logb 10 lo +
      (j : ℝ) * (Real.logb 10 hi - Real.logb 10 lo) / ((num : ℝ) - 1)))

/-- `np.percentile(xs, q)` with the default linear-interpolation method. -/
def npPercentile (xs : List ℝ) (q : ℝ) : ℝ :=
  let s := xs.mergeSort (fun a b => decide (a ≤ b))
  let rank := q / 100 * ((s.length : ℝ) - 1)
  let vlo := s.getD ⌊rank⌋.toNat 0
  let vhi := s.getD ⌈rank⌉.toNat 0
  vlo + (rank - ⌊rank⌋) * (vhi - vlo)

/-- One spectrum entry of `mfpa_scan`. -/
structure MfpaEntry where
  period_days : ℝ
  power : ℝ
  p95_threshold : ℝ
  p99_threshold : ℝ
  p_mfpa : ℝ
  a1b_consistency : String

/-- One significant-period entry of `mfpa_scan`. -/
structure MfpaSignificant where
  period_days : ℝ
  power : ℝ
  p_mfpa : ℝ
  a1b_consistency : String

/-- Return record of `mfpa_scan`. -/
structure MfpaScanResult where
  spectrum : List MfpaEntry
  significant_periods : List MfpaSignificant

/-- `mfpa_scan` from case-a1-mfpa.py. The seeded numpy generator is external
library code; it is modelled by the explicit stream `draws`, whose `k`-th
entry stands for the `k`-th call `rng.uniform(0, 2π, size=n)`. In the source
the bootstrap matrix has one row per replicate whose entries are all equal
(the same power is broadcast across the period axis), so the per-period
percentile thresholds and null-power columns collapse to a single vector,
which is how they are represented here. -/
def mfpaScan (times : List ℝ) (draws : ℕ → List ℝ)
    (nPeriods : ℕ) (minPeriodDays maxPeriodDays : ℝ) (nBootstrap : ℕ) : MfpaScanResult :=
  let periods := logspace10 minPeriodDays maxPeriodDays nPeriods
  let nullPowers := (List.range nBootstrap).map (fun k => mfpaPower (draws k))
  let p95 := npPercentile nullPowers 95
  let p99 := npPercentile nullPowers 99
  let spectrum := periods.map (fun T =>
    let phases := times.map (fun t => 2 * Real.pi * (realMod t T / T))
    let power := mfpaPower phases
    let pMfpa := ((nullPowers.filter (fun q => decide (power ≤ q))).length : ℝ) / nBootstrap
    { period_days := T, power := power, p95_threshold := p95, p99_threshold := p99,
      p_mfpa := pMfpa, a1b_consistency := a1bConsistencyLabel T })
  { spectrum := spectrum,
    significant_periods := (spectrum.filter (fun e => decide (p95 < e.power))).map
      (fun e => ⟨e.period_days, e.power, e.p_mfpa, e.a1b_consistency⟩) }

end

lemma computeD2_nonneg (c s : ℝ) (n : ℕ) : 0 ≤ computeD2 c s n := by
  unfold computeD2
  split
  · exact le_refl 0
  · positivity

lemma standardPFromD2_pos (d2 : ℝ) : 0 < standardPFromD2 d2 := Real.exp_pos _

lemma standardPFromD2_le_one {d2 : ℝ} (h : 0 ≤ d2) : standardPFromD2 d2 ≤ 1 := by
  unfold standardPFromD2
  calc Real.exp (-d2) ≤ Real.exp 0 := Real.exp_le_exp.mpr (by linarith)
  _ = 1 := Real.exp_zero

/-- C4: the empty event array yields the degenerate Schuster sentinel record
(`n_events = 0`, `n_clusters = 0`, `D2 = 0`, `p_standard = 1`,
`p_cluster_robust = 1`), `mfpa_power` of an empty phase array is `0`, and the
`n = 0` denominator of the D² statistic is guarded to give `D² = 0`. -/
theorem c4_empty_input_sentinels :
    (∀ T dt : ℝ, schusterSinglePeriod [] T dt = ⟨0, 0, 0, 1, 1⟩) ∧
    mfpaPower [] = 0 ∧ (∀ c s : ℝ, computeD2 c s 0 = 0) :=
  ⟨fun _ _ => rfl, rfl, fun _ _ => rfl⟩

/-- C10: the D² statistic is non-negative (`0` when `n = 0`), every p-value
the Schuster engine emits lies in `(0, 1]` (its `n = 0` path is guarded by
the sentinel), and the Rayleigh p-value lies in `(0, 1]` for every non-empty
phase array; however, `compute_rayleigh` itself has no empty-input guard, so
on the empty array the unguarded mean yields NaN (modelled as `none`) instead
of the sentinel `R = 0, p = 1` that the spec's uniform degenerate-input
policy prescribes, and no p-value in `(0, 1]` is emitted there. -/
theorem c10_p_values_in_unit_interval :
    (∀ (c s : ℝ) (n : ℕ), 0 ≤ computeD2 c s n) ∧
    (∀ c s : ℝ, computeD2 c s 0 = 0) ∧
    (∀ (times : List ℝ) (T dt : ℝ),
      0 < (schusterSinglePeriod times T dt).p_standard ∧
      (schusterSinglePeriod times T dt).p_standard ≤ 1 ∧
      0 < (schusterSinglePeriod times T dt).p_cluster_robust ∧
      (schusterSinglePeriod times T dt).p_cluster_robust ≤ 1) ∧
    computeRayleigh [] = none ∧
    (∀ phases : List ℝ, phases ≠ [] →
      ∃ R p mp, computeRayleigh phases = some (R, p, mp) ∧ 0 < p ∧ p ≤ 1) := by
  refine ⟨computeD2_nonneg, fun _ _ => rfl, ?_, rfl, ?_⟩
  · intro times T dt
    by_cases h : times.length = 0
    · simp [schusterSinglePeriod, h]
    · simp only [schusterSinglePeriod, h, if_false]
      refine ⟨standardPFromD2_pos _, standardPFromD2_le_one (computeD2_nonneg _ _ _),
        standardPFromD2_pos _, standardPFromD2_le_one (computeD2_nonneg _ _ _)⟩
  · intro phases hne
    have hlen : ¬(phases.length = 0) := by
      simpa [List.length_eq_zero] using hne
    simp only [computeRayleigh, if_neg hlen]
    refine ⟨_, _, _, rfl, Real.exp_pos _, ?_⟩
    refine le_trans (Real.exp_le_exp.mpr ?_) (le_of_eq Real.exp_zero)
    rw [neg_nonpos]
    positivity

/-- Witness for C10 at the one-element phase array `[0]`: `compute_rayleigh`
returns a defined triple whose p-value lies in `(0, 1]`. -/
theorem c10_p_values_in_unit_interval_witness :
    ([(0 : ℝ)] ≠ []) ∧
    (∃ R p mp, computeRayleigh [(0 : ℝ)] = some (R, p, mp) ∧ 0 < p ∧ p ≤ 1) :=
  ⟨by simp, c10_p_values_in_unit_interval.2.2.2.2 [(0 : ℝ)] (by simp)⟩

lemma clusterIdsAux_length (dt : ℝ) :
    ∀ (ts : List ℝ) (prev : ℝ) (c : ℕ), (clusterIdsAux dt prev c ts).length = ts.length := by
  intro ts
  induction ts with
  | nil => intro prev c; rfl
  | cons t rest ih => intro prev c; simp [clusterIdsAux, ih]

lemma assignClusters_length (times : List ℝ) (dt : ℝ) :
    (assignClusters times dt).length = times.length := by
  cases times with
  | nil => rfl
  | cons t rest => simp [assignClusters, clusterIdsAux_length]

lemma clusterIdsAux_step (dt : ℝ) :
    ∀ (ts : List ℝ) (prev : ℝ) (c : ℕ) (i : ℕ), i + 1 < (prev :: ts).length →
      (c :: clusterIdsAux dt prev c ts).getD (i + 1) 0 =
        (c :: clusterIdsAux dt prev c ts).getD i 0 +
          (if dt ≤ (prev :: ts).getD (i + 1) 0 - (prev :: ts).getD i 0 then 1 else 0) := by
  intro ts
  induction ts with
  | nil => intro prev c i hi; simp at hi
  | cons t rest ih =>
      intro prev c i hi
      cases i with
      | zero =>
          simp only [clusterIdsAux, List.getD_cons_succ, List.getD_cons_zero]
          split <;> simp
      | succ j =>
          simp only [clusterIdsAux, List.getD_cons_succ]
          have := ih t (if dt ≤ t - prev then c + 1 else c) j (by simpa using hi)
          simpa using this

lemma clusterIdsAux_all_gaps (dt : ℝ) :
    ∀ (ts : List ℝ) (prev : ℝ) (c : ℕ),
      (∀ i, i + 1 < (prev :: ts).length →
        dt ≤ (prev :: ts).getD (i + 1) 0 - (prev :: ts).getD i 0) →
      c :: clusterIdsAux dt prev c ts = (List.range (ts.length + 1)).map (c + ·) := by
  intro ts
  induction ts with
  | nil =>
      intro prev c h
      have : List.range 1 = [0] := rfl
      simp [clusterIdsAux, this]
  | cons t rest ih =>
      intro prev c h
      have h0 : dt ≤ t - prev := by
        have := h 0 (by simp)
        simpa using this
      have htail : ∀ i, i + 1 < (t :: rest).length →
          dt ≤ (t :: rest).getD (i + 1) 0 - (t :: rest).getD i 0 := by
        intro i hi
        have := h (i + 1) (by simpa using Nat.succ_lt_succ hi)
        simpa using this
      have ihr := ih t (c + 1) htail
      have hfun : List.map ((fun x => c + x) ∘ Nat.succ) (List.range (rest.length + 1)) =
          List.map (fun x => c + 1 + x) (List.range (rest.length + 1)) := by
        apply List.map_congr_left
        intro a _
        simp only [Function.comp_apply]
        omega
      simp only [clusterIdsAux, if_pos h0, List.length_cons]
      rw [List.range_succ_eq_map, List.map_cons, List.map_map, hfun, ← ihr]
      norm_num

/-- C8: a new cluster begins exactly at indices where the inter-event gap
reaches the threshold, and when every consecutive gap is at least the
threshold, `assign_clusters` yields `n` distinct ids `0, 1, ..., n-1` (every
event its own cluster). -/
theorem c8_assign_clusters_spec (times : List ℝ) (dt : ℝ) :
    (∀ i, i + 1 < times.length →
      (assignClusters times dt).getD (i + 1) 0 =
        (assignClusters times dt).getD i 0 +
          (if dt ≤ times.getD (i + 1) 0 - times.getD i 0 then 1 else 0)) ∧
    ((∀ i, i + 1 < times.length → dt ≤ times.getD (i + 1) 0 - times.getD i 0) →
      assignClusters times dt = List.range times.length) := by
  constructor
  · intro i hi
    cases times with
    | nil => simp at hi
    | cons t rest => exact clusterIdsAux_step dt rest t 0 i hi
  · intro h
    cases times with
    | nil => rfl
    | cons t rest =>
        have hh := clusterIdsAux_all_gaps dt rest t 0 h
        simp only [assignClusters] at hh ⊢
        rw [hh]
        simp

/-- Witness for C8 at `times = [0, 3]`, `dt = 1`: the single gap `3 - 0`
reaches the threshold, the id increments across it, and the cluster ids are
`[0, 1]`. -/
theorem c8_assign_clusters_witness :
    ((0 : ℕ) + 1 < ([0, 3] : List ℝ).length) ∧
    (assignClusters [0, 3] 1).getD 1 0 = (assignClusters [0, 3] 1).getD 0 0 +
      (if (1 : ℝ) ≤ ([0, 3] : List ℝ).getD 1 0 - ([0, 3] : List ℝ).getD 0 0 then 1 else 0) ∧
    assignClusters [0, 3] 1 = [0, 1] := by
  refine ⟨by norm_num, (c8_assign_clusters_spec [0, 3] 1).1 0 (by norm_num), ?_⟩
  have h := (c8_assign_clusters_spec [0, 3] 1).2 ?_
  · rw [h]; rfl
  · intro i hi
    simp only [List.length_cons, List.length_nil] at hi
    have hi0 : i = 0 := by omega
    subst hi0
    norm_num



lemma classifyGo_of_none (ps pe : ℚ) :
    ∀ L : List (ℕ × ℚ × ℚ), (∀ b ∈ L, overlapFraction ps pe b.2.1 b.2.2 ≤ 1 / 2) →
      classifyGo ps pe L = ("new interval") := by
  intro L
  induction L with
  | nil => intro _; rfl
  | cons b rest ih =>
      intro h
      have hb := h b (List.mem_cons_self b rest)
      rw [classifyGo, if_neg (not_lt.mpr hb)]
      exact ih (fun b2 hb2 => h b2 (List.mem_cons_of_mem b hb2))

lemma classifyGo_of_first (ps pe : ℚ) :
    ∀ (L : List (ℕ × ℚ × ℚ)) (i : ℕ), i < L.length →
      (∀ j, j < i →
        overlapFraction ps pe (L.getD j (0, 0, 0)).2.1 (L.getD j (0, 0, 0)).2.2 ≤ 1 / 2) →
      1 / 2 < overlapFraction ps pe (L.getD i (0, 0, 0)).2.1 (L.getD i (0, 0, 0)).2.2 →
      classifyGo ps pe L = ("matches interval ") ++ toString (L.getD i (0, 0, 0)).1 := by
  intro L
  induction L with
  | nil => intro i hi; simp at hi
  | cons b rest ih =>
      intro i hi hprev hcur
      cases i with
      | zero =>
          simp only [List.getD_cons_zero] at hcur ⊢
          rw [classifyGo, if_pos hcur]
      | succ j =>
          have hb : overlapFraction ps pe b.2.1 b.2.2 ≤ 1 / 2 := by
            have := hprev 0 (Nat.succ_pos j)
            simpa using this
          rw [classifyGo, if_neg (not_lt.mpr hb)]
          refine ih j (by simpa using hi) ?_ (by simpa using hcur)
          intro j2 hj2
          have := hprev (j2 + 1) (Nat.succ_lt_succ hj2)
          simpa using this

/-- C6: `classify_interval` returns the match label for baseline `i` exactly
when the overlap fraction with baseline `i` strictly exceeds 0.5 and `i` is
the first baseline in input order doing so; when no baseline's overlap
fraction exceeds 0.5 it returns the new-interval label. -/
theorem c6_classify_interval (ps pe : ℚ) :
    ((∀ b ∈ a1bBaselineIntervals, overlapFraction ps pe b.2.1 b.2.2 ≤ 1 / 2) →
      classifyInterval ps pe = ("new interval")) ∧
    (∀ i, i < a1bBaselineIntervals.length →
      (∀ j, j < i →
        overlapFraction ps pe (a1bBaselineIntervals.getD j (0, 0, 0)).2.1
          (a1bBaselineIntervals.getD j (0, 0, 0)).2.2 ≤ 1 / 2) →
      1 / 2 < overlapFraction ps pe (a1bBaselineIntervals.getD i (0, 0, 0)).2.1
        (a1bBaselineIntervals.getD i (0, 0, 0)).2.2 →
      classifyInterval ps pe =
        ("matches interval ") ++ toString (a1bBaselineIntervals.getD i (0, 0, 0)).1) :=
  ⟨classifyGo_of_none ps pe a1bBaselineIntervals,
    fun i hi hprev hcur => classifyGo_of_first ps pe a1bBaselineIntervals i hi hprev hcur⟩

/-- Witness for C6: the recovered interval `[0.19, 0.25)` overlaps baseline 1
(`[0.1875, 0.25]`) on its whole width, so the overlap fraction is `1 > 0.5`
and the classification is the match label for baseline 1. -/
theorem c6_classify_interval_witness :
    (1 / 2 < overlapFraction (19 / 100) (1 / 4)
      (a1bBaselineIntervals.getD 0 (0, 0, 0)).2.1
      (a1bBaselineIntervals.getD 0 (0, 0, 0)).2.2) ∧
    classifyInterval (19 / 100) (1 / 4) = ("matches interval 1") := by
  have hfrac : 1 / 2 < overlapFraction (19 / 100) (1 / 4)
      (a1bBaselineIntervals.getD 0 (0, 0, 0)).2.1
      (a1bBaselineIntervals.getD 0 (0, 0, 0)).2.2 := by
    norm_num [a1bBaselineIntervals, overlapFraction, max_def, min_def]
  refine ⟨hfrac, ?_⟩
  have h := (c6_classify_interval (19 / 100) (1 / 4)).2 0 (by norm_num [a1bBaselineIntervals])
    (fun j hj => absurd hj (Nat.not_lt_zero j)) hfrac
  rw [h]
  rfl

lemma expandRanges_nil : expandRanges [] = [] := rfl

lemma expandRanges_cons (r : ℕ × ℕ) (rs : List (ℕ × ℕ)) :
    expandRanges (r :: rs) = List.range' r.1 (r.2 + 1 - r.1) ++ expandRanges rs := by
  simp [expandRanges]

lemma mergeGo_head_start :
    ∀ (xs : List ℕ) (s p : ℕ), ∃ q tl, mergeGo s p xs = (s, q) :: tl := by
  intro xs
  induction xs with
  | nil => intro s p; exact ⟨p, [], rfl⟩
  | cons idx rest ih =>
      intro s p
      rw [mergeGo]
      split
      · exact ih s idx
      · exact ⟨p, mergeGo idx idx rest, rfl⟩

lemma mergeGo_gapped :
    ∀ (xs : List ℕ) (s p : ℕ), s ≤ p → List.Chain (· < ·) p xs →
      GappedRanges (mergeGo s p xs) := by
  intro xs
  induction xs with
  | nil =>
      intro s p hsp _
      refine ⟨?_, by simp [mergeGo]⟩
      intro r hr
      simp only [mergeGo, List.mem_singleton] at hr
      subst hr
      exact hsp
  | cons idx rest ih =>
      intro s p hsp hch
      rw [List.chain_cons] at hch
      obtain ⟨hpi, hrest⟩ := hch
      rw [mergeGo]
      split
      · exact ih s idx (by omega) hrest
      · rename_i hne
        have hidx : p + 1 < idx + 1 := by omega
        have hg := ih idx idx (le_refl idx) hrest
        obtain ⟨q, tl, heq⟩ := mergeGo_head_start rest idx idx
        refine ⟨?_, ?_⟩
        · intro r hr
          rcases List.mem_cons.mp hr with h1 | h2
          · simp [h1, hsp]
          · exact hg.1 r h2
        · rw [List.chain'_cons', heq]
          refine ⟨?_, by rw [← heq]; exact hg.2⟩
          intro y hy
          simp at hy
          rw [← hy]
          simp only []
          omega

lemma mergeGo_range_skip :
    ∀ (c start prev : ℕ) (ys : List ℕ),
      mergeGo start prev (List.range' (prev + 1) c ++ ys) = mergeGo start (prev + c) ys := by
  intro c
  induction c with
  | zero => intro start prev ys; simp [List.range']
  | succ c2 ih =>
      intro start prev ys
      rw [List.range'_succ, List.cons_append, mergeGo, if_pos rfl]
      have := ih start (prev + 1) ys
      rw [show prev + 1 + 1 = prev + 1 + 1 from rfl] at this
      rw [this]
      congr 1
      omega

lemma merge_expand_cons (s e : ℕ) (rest : List (ℕ × ℕ)) (k : ℕ) (h : s ≤ e) :
    mergeAdjacentBins (expandRanges ((s, e) :: rest)) k = mergeGo s e (expandRanges rest) := by
  rw [expandRanges_cons]
  have h1 : e + 1 - s = (e - s) + 1 := by omega
  rw [h1, List.range'_succ, List.cons_append, mergeAdjacentBins]
  rw [mergeGo_range_skip (e - s) s s (expandRanges rest)]
  congr 1
  omega

lemma merge_expand_of_gapped (k : ℕ) :
    ∀ rs : List (ℕ × ℕ), GappedRanges rs →
      mergeAdjacentBins (expandRanges rs) k = rs := by
  intro rs
  induction rs with
  | nil => intro _; rfl
  | cons r rest ih =>
      intro hg
      obtain ⟨s, e⟩ := r
      have hse : s ≤ e := hg.1 (s, e) (List.mem_cons_self _ _)
      rw [merge_expand_cons s e rest k hse]
      cases rest with
      | nil => rfl
      | cons r2 rest2 =>
          obtain ⟨s2, e2⟩ := r2
          have hs2e2 : s2 ≤ e2 := hg.1 (s2, e2) (by simp)
          have hgap : e + 1 < s2 := by
            have := hg.2
            rw [List.chain'_cons] at this
            exact this.1
          have hg2 : GappedRanges ((s2, e2) :: rest2) := by
            refine ⟨fun r hr => hg.1 r (List.mem_cons_of_mem _ hr), ?_⟩
            have := hg.2
            rw [List.chain'_cons] at this
            exact this.2
          have ih2 := ih hg2
          rw [merge_expand_cons s2 e2 rest2 k hs2e2] at ih2
          rw [expandRanges_cons]
          dsimp only
          have h2 : e2 + 1 - s2 = (e2 - s2) + 1 := by omega
          rw [h2, List.range'_succ, List.cons_append, mergeGo,
            if_neg (by omega : ¬s2 = e + 1)]
          rw [mergeGo_range_skip (e2 - s2) s2 s2 (expandRanges rest2)]
          rw [show s2 + (e2 - s2) = e2 by omega]
          rw [ih2]

/-- C9: merging a strictly ascending list of elevated bin indices, expanding
the resulting inclusive ranges back into a bin-index list, and merging again
yields the same list of ranges as the first merge. -/
theorem c9_merge_adjacent_idempotent (L : List ℕ) (k : ℕ)
    (h : List.Chain' (· < ·) L) :
    mergeAdjacentBins (expandRanges (mergeAdjacentBins L k)) k = mergeAdjacentBins L k := by
  cases L with
  | nil => rfl
  | cons x xs =>
      have hch : List.Chain (· < ·) x xs := h
      have hg : GappedRanges (mergeGo x x xs) := mergeGo_gapped xs x x (le_refl x) hch
      show mergeAdjacentBins (expandRanges (mergeGo x x xs)) k = mergeGo x x xs
      exact merge_expand_of_gapped k (mergeGo x x xs) hg

/-- Witness for C9 at the elevated-bin list `[0, 1, 3]`: the first merge gives
`[(0, 1), (3, 3)]` and re-merging its expansion reproduces it. -/
theorem c9_merge_adjacent_idempotent_witness :
    List.Chain' (· < ·) [0, 1, 3] ∧
    mergeAdjacentBins (expandRanges (mergeAdjacentBins [0, 1, 3] 8)) 8 =
      mergeAdjacentBins [0, 1, 3] 8 :=
  ⟨by simp [List.chain'_cons], c9_merge_adjacent_idempotent [0, 1, 3] 8 (by simp [List.chain'_cons])⟩

lemma labelFromHits_three (b0 b1 b2 : Bool) :
    labelFromHits [b0, b1, b2] = labelOfHits b0 b1 b2 := by
  cases b0 <;> cases b1 <;> cases b2 <;> rfl

lemma predictedPhases_eq_amended (T : ℚ) (h : 0 < T) :
    predictedPhases T = specPhasesAmended T := by
  rw [predictedPhases, specPhasesAmended, nHarmonics, pyTrunc,
    if_pos (by positivity : (0 : ℚ) ≤ 365.25 / T)]

lemma a1bLabel_eq_labelOfHits (T : ℚ) (h : 0 < T) :
    a1bConsistencyLabel T = labelOfHits (intervalHit (specPhasesAmended T) 0)
      (intervalHit (specPhasesAmended T) 1) (intervalHit (specPhasesAmended T) 2) := by
  simp only [a1bConsistencyLabel, a1bIntervals, List.map_cons, List.map_nil,
    intervalHit, List.getD_cons_zero, List.getD_cons_succ]
  rw [predictedPhases_eq_amended T h]
  exact labelFromHits_three _ _ _

/-- C2 (amended): for every positive period, the predicted harmonic peak
phases used by `a1b_consistency_label` are exactly
`(k * period / 365.25) mod 1` for `k = 0 .. max 1 (floor (365.25 / period))`,
and the returned label names precisely those of the three baseline phase
intervals that contain at least one of these predicted phases. -/
theorem c2_a1b_label_amended (T : ℚ) (h : 0 < T) :
    predictedPhases T = specPhasesAmended T ∧
    a1bConsistencyLabel T = labelOfHits (intervalHit (specPhasesAmended T) 0)
      (intervalHit (specPhasesAmended T) 1) (intervalHit (specPhasesAmended T) 2) :=
  ⟨predictedPhases_eq_amended T h, a1bLabel_eq_labelOfHits T h⟩

/-- Witness for the amended C2 at the annual period `T = 365.25`: the harmonic
range is `k = 0 .. 1`, both predicted phases are `0`, no interval contains
them, and the label is the inconsistent-with-all label. -/
theorem c2_a1b_label_amended_witness :
    (0 : ℚ) < 365.25 ∧
    (predictedPhases (365.25 : ℚ) = specPhasesAmended (365.25 : ℚ) ∧
      a1bConsistencyLabel (365.25 : ℚ) =
        labelOfHits (intervalHit (specPhasesAmended (365.25 : ℚ)) 0)
          (intervalHit (specPhasesAmended (365.25 : ℚ)) 1)
          (intervalHit (specPhasesAmended (365.25 : ℚ)) 2)) :=
  ⟨by norm_num, c2_a1b_label_amended (365.25 : ℚ) (by norm_num)⟩


/-- C2 counterexample at `period_days = 438.3` (a period above one year, well
inside the default scan range): the source uses harmonics
`k = 0 .. max 1 (floor (365.25 / T)) = 0 .. 1`, predicting phases `0` and
`0.2`, and labels the period consistent with interval 1; the claim's set
`k = 0 .. floor (365.25 / T) = 0 .. 0` predicts only phase `0`, which lies in
none of the three baseline intervals, so the claimed label would name no
interval. -/
theorem c2_a1b_label_counterexample :
    predictedPhases ((4383 : ℚ) / 10) = [0, 1 / 5] ∧
    specPhasesFloor ((4383 : ℚ) / 10) = [0] ∧
    a1bConsistencyLabel ((4383 : ℚ) / 10) = ("consistent with interval 1 only") ∧
    intervalHit (specPhasesFloor ((4383 : ℚ) / 10)) 0 = false ∧
    intervalHit (specPhasesFloor ((4383 : ℚ) / 10)) 1 = false ∧
    intervalHit (specPhasesFloor ((4383 : ℚ) / 10)) 2 = false := by
  have hx : (365.25 : ℚ) / (4383 / 10) = 5 / 6 := by norm_num
  have hn : nHarmonics ((4383 : ℚ) / 10) = 1 := by
    rw [nHarmonics, pyTrunc, if_pos (by norm_num : (0 : ℚ) ≤ 365.25 / (4383 / 10)), hx]
    norm_num
  have hp : predictedPhases ((4383 : ℚ) / 10) = [0, 1 / 5] := by
    rw [predictedPhases, hn, show (1 : ℕ) + 1 = 2 from rfl,
      show List.range 2 = [0, 1] from rfl]
    simp only [List.map_cons, List.map_nil, Nat.cast_zero, Nat.cast_one]
    norm_num [Int.fract]
  have hfl : ⌊(5 / 6 : ℚ)⌋ = 0 := by norm_num
  have hs : specPhasesFloor ((4383 : ℚ) / 10) = [0] := by
    rw [specPhasesFloor, hx, hfl, show (0 : ℤ).toNat + 1 = 1 from rfl,
      show List.range 1 = [0] from rfl]
    simp only [List.map_cons, List.map_nil, Nat.cast_zero]
    norm_num [Int.fract]
  have e1 : ([(0 : ℚ), 1 / 5].any (fun p => decide ((0.1875 : ℚ) ≤ p ∧ p ≤ 0.25))) = true := by
    simp only [List.any_cons, List.any_nil, Bool.or_false, Bool.or_eq_true, decide_eq_true_eq]
    norm_num
  have e2 : ([(0 : ℚ), 1 / 5].any (fun p => decide ((0.625 : ℚ) ≤ p ∧ p ≤ 0.656))) = false := by
    simp only [List.any_cons, List.any_nil, Bool.or_false, Bool.or_eq_false_iff,
      decide_eq_false_iff_not]
    norm_num
  have e3 : ([(0 : ℚ), 1 / 5].any (fun p => decide ((0.875 : ℚ) ≤ p ∧ p ≤ 0.917))) = false := by
    simp only [List.any_cons, List.any_nil, Bool.or_false, Bool.or_eq_false_iff,
      decide_eq_false_iff_not]
    norm_num
  have hlabel : a1bConsistencyLabel ((4383 : ℚ) / 10) = ("consistent with interval 1 only") := by
    simp only [a1bConsistencyLabel, a1bIntervals, List.map_cons, List.map_nil, hp]
    rw [e1, e2, e3]
    rfl
  have hh0 : intervalHit (specPhasesFloor ((4383 : ℚ) / 10)) 0 = false := by
    rw [hs]
    simp only [intervalHit, a1bIntervals, List.getD_cons_zero, List.any_cons, List.any_nil,
      Bool.or_false, decide_eq_false_iff_not]
    norm_num
  have hh1 : intervalHit (specPhasesFloor ((4383 : ℚ) / 10)) 1 = false := by
    rw [hs]
    simp only [intervalHit, a1bIntervals, List.getD_cons_zero, List.getD_cons_succ,
      List.any_cons, List.any_nil, Bool.or_false, decide_eq_false_iff_not]
    norm_num
  have hh2 : intervalHit (specPhasesFloor ((4383 : ℚ) / 10)) 2 = false := by
    rw [hs]
    simp only [intervalHit, a1bIntervals, List.getD_cons_zero, List.getD_cons_succ,
      List.any_cons, List.any_nil, Bool.or_false, decide_eq_false_iff_not]
    norm_num
  exact ⟨hp, hs, hlabel, hh0, hh1, hh2⟩

lemma mfpaPower_nonneg (phases : List ℝ) : 0 ≤ mfpaPower phases := by
  unfold mfpaPower
  split
  · exact le_refl 0
  · positivity


lemma logspace10_mem_bounds :
    ∀ T ∈ logspace10 0.25 548 300, (0.25 : ℝ) ≤ T ∧ T ≤ 548 := by
  intro T hT
  simp only [logspace10, List.mem_map, List.mem_range] at hT
  obtain ⟨j, hj, rfl⟩ := hT
  have hcast : (((300 : ℕ) : ℝ) - 1) = 299 := by norm_num
  rw [hcast]
  set a := Real.logb 10 0.25 with ha
  set b := Real.logb 10 548 with hb
  have hab : a ≤ b := Real.logb_le_logb_of_le (by norm_num) (by norm_num) (by norm_num)
  have hj0 : (0 : ℝ) ≤ (j : ℝ) := Nat.cast_nonneg j
  have hjr : (j : ℝ) ≤ 299 := by
    have hle : j ≤ 299 := by omega
    exact_mod_cast hle
  have he1 : a ≤ a + (j : ℝ) * (b - a) / 299 := by
    have hq : 0 ≤ (j : ℝ) * (b - a) / 299 :=
      div_nonneg (mul_nonneg hj0 (by linarith)) (by norm_num)
    linarith
  have he2 : a + (j : ℝ) * (b - a) / 299 ≤ b := by
    have hx : (j : ℝ) * (b - a) / 299 ≤ b - a := by
      rw [div_le_iff (by norm_num : (0 : ℝ) < 299)]
      nlinarith
    linarith
  constructor
  · calc (0.25 : ℝ) = 10 ^ a :=
        (Real.rpow_logb (by norm_num) (by norm_num) (by norm_num)).symm
    _ ≤ 10 ^ (a + (j : ℝ) * (b - a) / 299) :=
        (Real.rpow_le_rpow_left_iff (by norm_num)).mpr he1
  · calc (10 : ℝ) ^ (a + (j : ℝ) * (b - a) / 299) ≤ 10 ^ b :=
        (Real.rpow_le_rpow_left_iff (by norm_num)).mpr he2
    _ = 548 := Real.rpow_logb (by norm_num) (by norm_num) (by norm_num)

lemma mfpaScan_spectrum_periods (times : List ℝ) (draws : ℕ → List ℝ) :
    (mfpaScan times draws 300 0.25 548 1000).spectrum.map (fun e => e.period_days) =
      logspace10 0.25 548 300 := by
  simp only [mfpaScan, List.map_map]
  exact (List.map_congr_left (fun T _ => rfl)).trans (List.map_id _)

/-- C7: with default parameters the MFPA scan spectrum has exactly 300
entries, every entry period lies in `[0.25, 548]` with the endpoints attained
at the first and last grid point (log-spaced grid), and every entry power is
non-negative. -/
theorem c7_mfpa_scan_default_spectrum (times : List ℝ) (draws : ℕ → List ℝ)
    (h : times ≠ []) :
    (mfpaScan times draws 300 0.25 548 1000).spectrum.length = 300 ∧
    (∀ e ∈ (mfpaScan times draws 300 0.25 548 1000).spectrum,
      0.25 ≤ e.period_days ∧ e.period_days ≤ 548 ∧ 0 ≤ e.power) ∧
    ((mfpaScan times draws 300 0.25 548 1000).spectrum.map
      (fun e => e.period_days))[0]? = some (0.25 : ℝ) ∧
    ((mfpaScan times draws 300 0.25 548 1000).spectrum.map
      (fun e => e.period_days))[299]? = some (548 : ℝ) := by
  have hmap := mfpaScan_spectrum_periods times draws
  refine ⟨?_, ?_, ?_, ?_⟩
  · have hlen := congrArg List.length hmap
    simp only [List.length_map] at hlen
    rw [hlen]
    simp [logspace10]
  · intro e he
    simp only [mfpaScan, List.mem_map] at he
    obtain ⟨T, hT, rfl⟩ := he
    obtain ⟨hT1, hT2⟩ := logspace10_mem_bounds T hT
    exact ⟨hT1, hT2, mfpaPower_nonneg _⟩
  · rw [hmap]
    simp only [logspace10, List.getElem?_map, List.getElem?_range (by omega : 0 < 300),
      Option.map_some']
    congr 1
    simp only [Nat.cast_zero, zero_mul, zero_div, add_zero]
    exact Real.rpow_logb (by norm_num) (by norm_num) (by norm_num)
  · rw [hmap]
    simp only [logspace10, List.getElem?_map, List.getElem?_range (by omega : 299 < 300),
      Option.map_some']
    congr 1
    rw [show (((300 : ℕ) : ℝ) - 1) = 299 by norm_num]
    rw [show ((299 : ℕ) : ℝ) = 299 by norm_num]
    rw [mul_div_cancel_left₀ _ (by norm_num : (299 : ℝ) ≠ 0)]
    rw [show Real.logb 10 0.25 + (Real.logb 10 548 - Real.logb 10 0.25) =
      Real.logb 10 548 by ring]
    exact Real.rpow_logb (by norm_num) (by norm_num) (by norm_num)

/-- Witness for C7: a one-event catalog is non-empty and its default MFPA
spectrum has 300 entries. -/
theorem c7_mfpa_scan_default_spectrum_witness :
    ([(0 : ℝ)] ≠ []) ∧
    (mfpaScan [(0 : ℝ)] (fun _ => []) 300 0.25 548 1000).spectrum.length = 300 :=
  ⟨by simp, (c7_mfpa_scan_default_spectrum [(0 : ℝ)] (fun _ => []) (by simp)).1⟩

lemma computePhases_length (times : List ℝ) (T : ℝ) :
    (computePhases times T).length = times.length := by
  simp [computePhases]

lemma clusterIdsAux_getLast_le (dt : ℝ) :
    ∀ (ts : List ℝ) (prev : ℝ) (c : ℕ),
      (clusterIdsAux dt prev c ts).getLast?.getD c ≤ c + ts.length := by
  intro ts
  induction ts with
  | nil => intro prev c; simp [clusterIdsAux]
  | cons t rest ih =>
      intro prev c
      by_cases hgap : dt ≤ t - prev
      · simp only [clusterIdsAux, if_pos hgap, List.getLast?_cons, Option.getD_some,
          List.length_cons]
        have := ih t (c + 1)
        omega
      · simp only [clusterIdsAux, if_neg hgap, List.getLast?_cons, Option.getD_some,
          List.length_cons]
        have := ih t c
        omega

lemma clusterIdsAux_mem_of_le_getLast (dt : ℝ) :
    ∀ (ts : List ℝ) (prev : ℝ) (c v : ℕ), c ≤ v →
      v ≤ (clusterIdsAux dt prev c ts).getLast?.getD c →
      v ∈ c :: clusterIdsAux dt prev c ts := by
  intro ts
  induction ts with
  | nil =>
      intro prev c v hcv hub
      simp [clusterIdsAux] at hub
      simp [clusterIdsAux]
      omega
  | cons t rest ih =>
      intro prev c v hcv hub
      by_cases heq : v = c
      · simp [heq]
      · by_cases hgap : dt ≤ t - prev
        · simp only [clusterIdsAux, if_pos hgap, List.getLast?_cons, Option.getD_some] at hub
          have hmem := ih t (c + 1) v (by omega) hub
          simp only [clusterIdsAux, if_pos hgap]
          exact List.mem_cons_of_mem c hmem
        · simp only [clusterIdsAux, if_neg hgap, List.getLast?_cons, Option.getD_some] at hub
          have hmem := ih t c v hcv hub
          simp only [clusterIdsAux, if_neg hgap]
          rcases List.mem_cons.mp hmem with h1 | h2
          · exact absurd h1 heq
          · exact List.mem_cons_of_mem c (List.mem_cons_of_mem c h2)

lemma sum_of_const (l : List ℝ) (a : ℝ) (h : ∀ x ∈ l, x = a) :
    l.sum = l.length * a := by
  induction l with
  | nil => simp
  | cons x rest ih =>
      have hx : x = a := h x (List.mem_cons_self x rest)
      have hr : rest.sum = rest.length * a :=
        ih (fun y hy => h y (List.mem_cons_of_mem x hy))
      simp only [List.sum_cons, hr, hx, List.length_cons]
      push_cast
      ring

lemma cos_arg_unit (φ : ℝ) :
    Real.cos (atan2 (Real.sin φ) (Real.cos φ)) = Real.cos φ ∧
    Real.sin (atan2 (Real.sin φ) (Real.cos φ)) = Real.sin φ := by
  have hsc : Real.sin φ * Real.sin φ + Real.cos φ * Real.cos φ = 1 := by
    have := Real.sin_sq_add_cos_sq φ
    nlinarith
  have habs : Complex.abs ⟨Real.cos φ, Real.sin φ⟩ = 1 := by
    rw [Complex.abs_apply, Complex.normSq_mk]
    rw [show Real.cos φ * Real.cos φ + Real.sin φ * Real.sin φ = 1 by nlinarith]
    exact Real.sqrt_one
  have hz : (⟨Real.cos φ, Real.sin φ⟩ : ℂ) ≠ 0 := by
    intro h
    rw [h] at habs
    simp at habs
  constructor
  · rw [atan2, Complex.cos_arg hz, habs]
    simp
  · rw [atan2, Complex.sin_arg, habs]
    simp

/-- C1 (amended): when every event has the same phase angle for the test
period, the cluster-robust Schuster p-value is at least the standard one
(exactly, in real arithmetic): the standard test gives `D² = n` and the
cluster-robust test gives `D² = n_clusters ≤ n`. -/
theorem c1_cluster_robust_p_ge_standard_amended (times : List ℝ) (T dt : ℝ)
    (hph : ∀ i j, i < times.length → j < times.length →
      (computePhases times T).getD i 0 = (computePhases times T).getD j 0) :
    (schusterSinglePeriod times T dt).p_standard ≤
      (schusterSinglePeriod times T dt).p_cluster_robust := by
  cases times with
  | nil => simp [schusterSinglePeriod]
  | cons t rest =>
      have hlen0 : ¬((t :: rest).length = 0) := by simp
      simp only [schusterSinglePeriod, if_neg hlen0]
      set phases := computePhases (t :: rest) T with hphdef
      set ids := assignClusters (t :: rest) dt with hidsdef
      set m := ids.getLast?.getD 0 + 1 with hmdef
      set φ := phases.getD 0 0 with hphidef
      have hplen : phases.length = (t :: rest).length := computePhases_length _ _
      have hilen : ids.length = (t :: rest).length := assignClusters_length _ _
      have hφall : ∀ x ∈ phases, x = φ := by
        intro x hx
        obtain ⟨⟨i, hi⟩, hget⟩ := List.mem_iff_get.mp hx
        have hib : i < (t :: rest).length := by rw [← hplen]; exact hi
        have h0b : 0 < (t :: rest).length := by simp
        have heq := hph i 0 hib h0b
        calc x = phases.get ⟨i, hi⟩ := hget.symm
        _ = phases.getD i 0 := by rw [List.getD_eq_getElem phases 0 hi]; rfl
        _ = φ := heq
      have hidsexp : ids = 0 :: clusterIdsAux dt t 0 rest := rfl
      have hmexp : m = (clusterIdsAux dt t 0 rest).getLast?.getD 0 + 1 := by
        rw [hmdef, hidsexp, List.getLast?_cons, Option.getD_some]
      have hm0 : m ≠ 0 := by omega
      have hn0 : (t :: rest).length ≠ 0 := hlen0
      -- every cluster id below m occurs in ids
      have hcluster_mem : ∀ cid, cid < m → cid ∈ ids := by
        intro cid hcid
        rw [hidsexp]
        apply clusterIdsAux_mem_of_le_getLast dt rest t 0 cid (Nat.zero_le cid)
        omega
      -- each cluster unit vector equals (cos φ, sin φ)
      have hunits : ∀ u ∈ clusterUnits phases ids m, u = (Real.cos φ, Real.sin φ) := by
        intro u hu
        simp only [clusterUnits, List.mem_map, List.mem_range] at hu
        obtain ⟨cid, hcid, rfl⟩ := hu
        have hcid_mem : cid ∈ ids := hcluster_mem cid hcid
        obtain ⟨⟨i, hiid⟩, hget⟩ := List.mem_iff_get.mp hcid_mem
        have hzlen : (ids.zip phases).length = (t :: rest).length := by
          rw [List.length_zip, hilen, hplen, min_self]
        have hizip : i < (ids.zip phases).length := by
          rw [hzlen, ← hilen]
          exact hiid
        have hip : i < phases.length := by
          rw [hplen, ← hilen]
          exact hiid
        have hpair : (ids.zip phases)[i] = (ids[i], phases[i]) :=
          List.getElem_zip
        have hfst : (ids.zip phases)[i].1 = cid := by
          rw [hpair]
          exact hget
        have hpm : (ids.zip phases)[i] ∈ ids.zip phases := List.getElem_mem hizip
        have hfil : (ids.zip phases)[i] ∈ (ids.zip phases).filter (fun p => p.1 == cid) := by
          rw [List.mem_filter]
          refine ⟨hpm, ?_⟩
          rw [hfst]
          exact beq_self_eq_true cid
        have hcp_ne :
            ((ids.zip phases).filter (fun p => p.1 == cid)).map Prod.snd ≠ [] := by
          apply List.ne_nil_of_mem
          exact List.mem_map_of_mem Prod.snd hfil
        have hcp_all :
            ∀ x ∈ ((ids.zip phases).filter (fun p => p.1 == cid)).map Prod.snd, x = φ := by
          intro x hx
          obtain ⟨pr, hpr, rfl⟩ := List.mem_map.mp hx
          have hzz := (List.mem_filter.mp hpr).1
          exact hφall pr.2 (List.of_mem_zip hzz).2
        have hlcp :
            ((((ids.zip phases).filter (fun p => p.1 == cid)).map Prod.snd).length : ℝ) ≠ 0 := by
          have := List.length_pos.mpr hcp_ne
          exact_mod_cast Nat.pos_iff_ne_zero.mp this
        have hmc :
            ((((ids.zip phases).filter (fun p => p.1 == cid)).map Prod.snd).map Real.cos).sum /
              ((((ids.zip phases).filter (fun p => p.1 == cid)).map Prod.snd).length : ℝ) =
              Real.cos φ := by
          rw [sum_of_const _ (Real.cos φ) (by
            intro y hy
            obtain ⟨x, hx, rfl⟩ := List.mem_map.mp hy
            rw [hcp_all x hx]), List.length_map]
          simp only [List.length_map] at hlcp ⊢
          rw [mul_div_cancel_left₀ _ hlcp]
        have hms :
            ((((ids.zip phases).filter (fun p => p.1 == cid)).map Prod.snd).map Real.sin).sum /
              ((((ids.zip phases).filter (fun p => p.1 == cid)).map Prod.snd).length : ℝ) =
              Real.sin φ := by
          rw [sum_of_const _ (Real.sin φ) (by
            intro y hy
            obtain ⟨x, hx, rfl⟩ := List.mem_map.mp hy
            rw [hcp_all x hx]), List.length_map]
          simp only [List.length_map] at hlcp ⊢
          rw [mul_div_cancel_left₀ _ hlcp]
        rw [hmc, hms, (cos_arg_unit φ).1, (cos_arg_unit φ).2]
      -- sums of the unit vectors
      have hul : (clusterUnits phases ids m).length = m := by
        simp [clusterUnits]
      have hfstsum : ((clusterUnits phases ids m).map Prod.fst).sum = (m : ℝ) * Real.cos φ := by
        rw [sum_of_const _ (Real.cos φ) (by
          intro y hy
          obtain ⟨u, hu, rfl⟩ := List.mem_map.mp hy
          rw [hunits u hu]), List.length_map, hul]
      have hsndsum : ((clusterUnits phases ids m).map Prod.snd).sum = (m : ℝ) * Real.sin φ := by
        rw [sum_of_const _ (Real.sin φ) (by
          intro y hy
          obtain ⟨u, hu, rfl⟩ := List.mem_map.mp hy
          rw [hunits u hu]), List.length_map, hul]
      -- event-level sums
      have hcossum : (phases.map Real.cos).sum = ((t :: rest).length : ℝ) * Real.cos φ := by
        rw [sum_of_const _ (Real.cos φ) (by
          intro y hy
          obtain ⟨x, hx, rfl⟩ := List.mem_map.mp hy
          rw [hφall x hx]), List.length_map, hplen]
      have hsinsum : (phases.map Real.sin).sum = ((t :: rest).length : ℝ) * Real.sin φ := by
        rw [sum_of_const _ (Real.sin φ) (by
          intro y hy
          obtain ⟨x, hx, rfl⟩ := List.mem_map.mp hy
          rw [hφall x hx]), List.length_map, hplen]
      -- both D² values
      have hd2std : computeD2 ((phases.map Real.cos).sum) ((phases.map Real.sin).sum)
          ((t :: rest).length) = (((t :: rest).length : ℕ) : ℝ) := by
        rw [computeD2, if_neg hn0, hcossum, hsinsum]
        have hnR : (((t :: rest).length : ℕ) : ℝ) ≠ 0 := by
          exact_mod_cast hn0
        rw [div_eq_iff hnR]
        nlinarith [Real.sin_sq_add_cos_sq φ]
      have hd2cr : computeD2 (((clusterUnits phases ids m).map Prod.fst).sum)
          (((clusterUnits phases ids m).map Prod.snd).sum) m = ((m : ℕ) : ℝ) := by
        rw [computeD2, if_neg hm0, hfstsum, hsndsum]
        have hmR : ((m : ℕ) : ℝ) ≠ 0 := by
          exact_mod_cast hm0
        rw [div_eq_iff hmR]
        nlinarith [Real.sin_sq_add_cos_sq φ]
      have hmn : m ≤ (t :: rest).length := by
        rw [hmexp]
        have := clusterIdsAux_getLast_le dt rest t 0
        simp only [List.length_cons]
        omega
      rw [hd2std, hd2cr]
      unfold standardPFromD2
      apply Real.exp_le_exp.mpr
      apply neg_le_neg
      exact_mod_cast hmn

lemma atan2_zero_one : atan2 0 1 = 0 := by
  rw [atan2, show (⟨1, 0⟩ : ℂ) = 1 from Complex.ext (by simp) (by simp), Complex.arg_one]

lemma atan2_zero_negOne : atan2 0 (-1) = Real.pi := by
  rw [atan2, show (⟨-1, 0⟩ : ℂ) = -1 from Complex.ext (by simp) (by simp), Complex.arg_neg_one]

lemma clusterUnits_example :
    clusterUnits [0, 0, Real.pi, Real.pi] [0, 1, 2, 2] 3 = [(1, 0), (1, 0), (-1, 0)] := by
  simp only [clusterUnits, show List.range 3 = [0, 1, 2] from rfl, List.map_cons, List.map_nil,
    List.zip_cons_cons, List.zip_nil_right, List.filter_cons, List.filter_nil]
  norm_num [Real.cos_zero, Real.sin_zero, Real.cos_pi, Real.sin_pi,
    atan2_zero_one, atan2_zero_negOne]

lemma computePhases_example :
    computePhases [0, 2, 5, 5] 2 = [0, 0, Real.pi, Real.pi] := by
  simp only [computePhases, List.map_cons, List.map_nil, realMod]
  norm_num
  ring

lemma assignClusters_example :
    assignClusters [0, 2, 5, 5] 1 = [0, 1, 2, 2] := by
  simp only [assignClusters, clusterIdsAux]
  norm_num

/-- C1 counterexample at `times = [0, 2, 5, 5]`, period 2 days, cluster gap 1
day: the clusters are `{0}`, `{2}`, `{5, 5}` and each cluster's events share
one phase (`0`, `0`, `π`), yet the standard test sees cancelling vectors
(`D² = 0`, `p = 1`) while the three cluster unit vectors do not cancel
(`D² = 1/3`), so the cluster-robust p-value `exp (-1/3) ≤ 3/4` is smaller
than the standard one by far more than the `1e-12` tolerance. -/
theorem c1_cluster_robust_counterexample :
    PhaseIdenticalWithinClusters [0, 2, 5, 5] 2 1 ∧
    (schusterSinglePeriod [0, 2, 5, 5] 2 1).p_cluster_robust <
      (schusterSinglePeriod [0, 2, 5, 5] 2 1).p_standard - 1e-12 := by
  have hA := computePhases_example
  have hB := assignClusters_example
  constructor
  · unfold PhaseIdenticalWithinClusters
    intro i j hi hj hsame
    simp only [List.length_cons, List.length_nil] at hi hj
    rw [hB] at hsame
    rw [hA]
    interval_cases i <;> interval_cases j <;> simp_all
  · have hne : ¬(([0, 2, 5, 5] : List ℝ).length = 0) := by simp
    simp only [schusterSinglePeriod, if_neg hne]
    rw [hA, hB]
    rw [show (([0, 1, 2, 2] : List ℕ).getLast?.getD 0 + 1) = 3 from rfl]
    rw [clusterUnits_example]
    have hcos : (([0, 0, Real.pi, Real.pi] : List ℝ).map Real.cos).sum = 0 := by
      simp [Real.cos_zero, Real.cos_pi]
    have hsin : (([0, 0, Real.pi, Real.pi] : List ℝ).map Real.sin).sum = 0 := by
      simp [Real.sin_zero, Real.sin_pi]
    have hfst : (([(1, 0), (1, 0), (-1, 0)] : List (ℝ × ℝ)).map Prod.fst).sum = 1 := by
      norm_num
    have hsnd : (([(1, 0), (1, 0), (-1, 0)] : List (ℝ × ℝ)).map Prod.snd).sum = 0 := by
      norm_num
    rw [hcos, hsin, hfst, hsnd]
    have hd2std : computeD2 0 0 ([0, 2, 5, 5] : List ℝ).length = 0 := by
      rw [computeD2, if_neg hne]
      norm_num
    have hd2cr : computeD2 1 0 3 = 1 / 3 := by
      rw [computeD2]
      norm_num
    rw [hd2std, hd2cr]
    unfold standardPFromD2
    rw [neg_zero, Real.exp_zero]
    have h1 : (4 / 3 : ℝ) ≤ Real.exp (1 / 3) := by
      have := Real.add_one_le_exp (1 / 3 : ℝ)
      linarith
    have h2 : Real.exp (-(1 / 3 : ℝ)) * Real.exp (1 / 3) = 1 := by
      rw [← Real.exp_add]
      norm_num
    have h3 : 0 < Real.exp (-(1 / 3 : ℝ)) := Real.exp_pos _
    nlinarith

lemma computePhases_pair :
    computePhases [5, 5] 2 = [Real.pi, Real.pi] := by
  simp only [computePhases, List.map_cons, List.map_nil, realMod]
  norm_num
  ring

/-- Witness for the amended C1 at `times = [5, 5]`, period 2, gap 1: both
events have phase `π`, and the cluster-robust p-value `exp (-1)` is at least
the standard one `exp (-2)`. -/
theorem c1_cluster_robust_p_ge_standard_amended_witness :
    (∀ i j, i < ([5, 5] : List ℝ).length → j < ([5, 5] : List ℝ).length →
      (computePhases [5, 5] 2).getD i 0 = (computePhases [5, 5] 2).getD j 0) ∧
    (schusterSinglePeriod [5, 5] 2 1).p_standard ≤
      (schusterSinglePeriod [5, 5] 2 1).p_cluster_robust := by
  have hhyp : ∀ i j, i < ([5, 5] : List ℝ).length → j < ([5, 5] : List ℝ).length →
      (computePhases [5, 5] 2).getD i 0 = (computePhases [5, 5] 2).getD j 0 := by
    intro i j hi hj
    simp only [List.length_cons, List.length_nil] at hi hj
    rw [computePhases_pair]
    interval_cases i <;> interval_cases j <;> rfl
  exact ⟨hhyp, c1_cluster_robust_p_ge_standard_amended [5, 5] 2 1 hhyp⟩

lemma maskAt_cons_zero (b : Bool) (M : List Bool) : maskAt (b :: M) 0 = b := rfl

lemma maskAt_cons_succ (b : Bool) (M : List Bool) (j : ℕ) :
    maskAt (b :: M) (j + 1) = maskAt M j := rfl

lemma maskAt_drop (M : List Bool) (d j : ℕ) :
    maskAt (M.drop d) j = maskAt M (d + j) := by
  unfold maskAt
  rw [List.getD_eq_getElem?_getD, List.getElem?_drop, ← List.getD_eq_getElem?_getD]

lemma countLeadTrue_le_length (M : List Bool) : countLeadTrue M ≤ M.length := by
  induction M with
  | nil => simp [countLeadTrue]
  | cons b rest ih =>
      cases b
      · simp [countLeadTrue]
      · simp only [countLeadTrue, List.length_cons]
        omega

lemma countLeadTrue_true (M : List Bool) :
    ∀ j, j < countLeadTrue M → maskAt M j = true := by
  induction M with
  | nil => intro j hj; simp [countLeadTrue] at hj
  | cons b rest ih =>
      intro j hj
      cases b
      · simp [countLeadTrue] at hj
      · cases j with
        | zero => rfl
        | succ j2 =>
            rw [maskAt_cons_succ]
            apply ih
            simp only [countLeadTrue] at hj
            omega

lemma countLeadTrue_boundary (M : List Bool) :
    countLeadTrue M = M.length ∨ maskAt M (countLeadTrue M) = false := by
  induction M with
  | nil => left; rfl
  | cons b rest ih =>
      cases b
      · right; rfl
      · rcases ih with h | h
        · left; simp [countLeadTrue, h]
        · right
          simp only [countLeadTrue]
          rw [maskAt_cons_succ]
          exact h

lemma countLeadTrue_le_of_false (M : List Bool) (j : ℕ) (h : maskAt M j = false) :
    countLeadTrue M ≤ j := by
  by_contra hc
  rw [countLeadTrue_true M j (by omega)] at h
  simp at h

lemma runsGo_some (M : List Bool) :
    ∀ (i s : ℕ), runsGo i (some s) M =
      (s, i + countLeadTrue M) :: runsGo (i + countLeadTrue M) none (M.drop (countLeadTrue M)) := by
  induction M with
  | nil => intro i s; simp [runsGo, countLeadTrue]
  | cons b rest ih =>
      intro i s
      cases b
      · show (s, i) :: runsGo (i + 1) none rest = _
        simp only [countLeadTrue, Nat.add_zero, List.drop_zero]
        show _ = (s, i) :: runsGo i none (false :: rest)
        show _ = (s, i) :: runsGo (i + 1) none rest
        rfl
      · show runsGo (i + 1) (some s) rest = _
        rw [ih (i + 1) s]
        simp only [countLeadTrue, List.drop_succ_cons]
        rw [show i + (countLeadTrue rest + 1) = i + 1 + countLeadTrue rest by omega]

lemma runsGo_shift (k : ℕ) :
    ∀ (M : List Bool) (i : ℕ),
      (runsGo (i + k) none M = (runsGo i none M).map (fun r => (r.1 + k, r.2 + k))) ∧
      (∀ s, runsGo (i + k) (some (s + k)) M =
        (runsGo i (some s) M).map (fun r => (r.1 + k, r.2 + k))) := by
  intro M
  induction M with
  | nil =>
      intro i
      exact ⟨rfl, fun s => rfl⟩
  | cons b rest ih =>
      intro i
      cases b
      · constructor
        · show runsGo (i + k + 1) none rest = (runsGo (i + 1) none rest).map _
          rw [show i + k + 1 = i + 1 + k by omega]
          exact (ih (i + 1)).1
        · intro s
          show (s + k, i + k) :: runsGo (i + k + 1) none rest =
            ((s, i) :: runsGo (i + 1) none rest).map _
          rw [List.map_cons, show i + k + 1 = i + 1 + k by omega, (ih (i + 1)).1]
      · constructor
        · show runsGo (i + k + 1) (some (i + k)) rest =
            (runsGo (i + 1) (some i) rest).map _
          rw [show i + k + 1 = i + 1 + k by omega]
          exact (ih (i + 1)).2 i
        · intro s
          show runsGo (i + k + 1) (some (s + k)) rest =
            (runsGo (i + 1) (some s) rest).map _
          rw [show i + k + 1 = i + 1 + k by omega]
          exact (ih (i + 1)).2 s

lemma runsGo_none_shift (k : ℕ) (M : List Bool) :
    runsGo k none M = (runsGo 0 none M).map (fun r => (r.1 + k, r.2 + k)) := by
  have h := (runsGo_shift k M 0).1
  rw [Nat.zero_add] at h
  exact h

lemma mem_map_shift (L : List (ℕ × ℕ)) (k s e : ℕ) :
    ((s, e) ∈ L.map (fun r => (r.1 + k, r.2 + k))) ↔
      (k ≤ s ∧ k ≤ e ∧ (s - k, e - k) ∈ L) := by
  rw [List.mem_map]
  constructor
  · rintro ⟨⟨a, b⟩, hab, heq⟩
    simp only [Prod.mk.injEq] at heq
    obtain ⟨h1, h2⟩ := heq
    refine ⟨by omega, by omega, ?_⟩
    rw [show s - k = a by omega, show e - k = b by omega]
    exact hab
  · rintro ⟨h1, h2, hmem⟩
    refine ⟨(s - k, e - k), hmem, ?_⟩
    simp only [Prod.mk.injEq]
    omega

lemma isMaxRunExcl_false_cons (M : List Bool) (s e : ℕ) :
    IsMaxRunExcl (false :: M) s e ↔ 1 ≤ s ∧ 1 ≤ e ∧ IsMaxRunExcl M (s - 1) (e - 1) := by
  unfold IsMaxRunExcl
  constructor
  · rintro ⟨h1, h2, h3, h4, h5⟩
    have hs1 : 1 ≤ s := by
      by_contra hc
      have hs0 : s = 0 := by omega
      subst hs0
      have := h3 0 (le_refl 0) h1
      simp [maskAt_cons_zero] at this
    simp only [List.length_cons] at h2
    refine ⟨hs1, by omega, by omega, by omega, ?_, ?_, ?_⟩
    · intro i hi1 hi2
      have := h3 (i + 1) (by omega) (by omega)
      rwa [maskAt_cons_succ] at this
    · by_cases hs2 : s = 1
      · left; omega
      · right
        rcases h4 with h4 | h4
        · omega
        · rw [show s - 1 - 1 = s - 2 by omega]
          rw [show s - 1 = s - 2 + 1 by omega, maskAt_cons_succ] at h4
          exact h4
    · rcases h5 with h5 | h5
      · left
        simp only [List.length_cons] at h5
        omega
      · right
        rw [show e = (e - 1) + 1 by omega, maskAt_cons_succ] at h5
        exact h5
  · rintro ⟨hs1, he1, h1, h2, h3, h4, h5⟩
    refine ⟨by omega, by simp only [List.length_cons]; omega, ?_, ?_, ?_⟩
    · intro i hi1 hi2
      rw [show i = (i - 1) + 1 by omega, maskAt_cons_succ]
      exact h3 (i - 1) (by omega) (by omega)
    · right
      by_cases hs2 : s = 1
      · rw [show s - 1 = 0 by omega, maskAt_cons_zero]
      · rcases h4 with h4 | h4
        · omega
        · rw [show s - 1 = (s - 2) + 1 by omega, maskAt_cons_succ,
            show s - 2 = s - 1 - 1 by omega]
          exact h4
    · rcases h5 with h5 | h5
      · left; simp only [List.length_cons]; omega
      · right
        rw [show e = (e - 1) + 1 by omega, maskAt_cons_succ]
        exact h5

lemma maskAt_of_length_le (M : List Bool) (j : ℕ) (h : M.length ≤ j) :
    maskAt M j = false := by
  unfold maskAt
  exact List.getD_eq_default M false h

lemma isMaxRunExcl_true_cons (M : List Bool) (s e : ℕ) :
    IsMaxRunExcl (true :: M) s e ↔
      ((s = 0 ∧ e = 1 + countLeadTrue M) ∨
        (1 + countLeadTrue M ≤ s ∧ 1 + countLeadTrue M ≤ e ∧
          IsMaxRunExcl (M.drop (countLeadTrue M)) (s - (1 + countLeadTrue M))
            (e - (1 + countLeadTrue M)))) := by
  constructor
  · rintro ⟨h1, h2, h3, h4, h5⟩
    simp only [List.length_cons] at h2
    by_cases hs0 : s = 0
    · left
      subst hs0
      have hle : e - 1 ≤ countLeadTrue M := by
        rcases countLeadTrue_boundary M with hb | hb
        · omega
        · by_contra hc
          have hm := h3 (countLeadTrue M + 1) (by omega) (by omega)
          rw [maskAt_cons_succ, hb] at hm
          simp at hm
      have hge : countLeadTrue M ≤ e - 1 := by
        rcases h5 with h5 | h5
        · have := countLeadTrue_le_length M
          simp only [List.length_cons] at h5
          omega
        · rw [show e = (e - 1) + 1 by omega, maskAt_cons_succ] at h5
          exact countLeadTrue_le_of_false M (e - 1) h5
      exact ⟨rfl, by omega⟩
    · right
      have h4a : maskAt (true :: M) (s - 1) = false := by
        rcases h4 with h4 | h4
        · exact absurd h4 hs0
        · exact h4
      have hs2 : 2 ≤ s := by
        by_contra hc
        have hs1 : s = 1 := by omega
        rw [hs1] at h4a
        simp [maskAt_cons_zero] at h4a
      have h4b : maskAt M (s - 2) = false := by
        rw [show s - 1 = (s - 2) + 1 by omega, maskAt_cons_succ] at h4a
        exact h4a
      have hclb : countLeadTrue M ≤ s - 2 := countLeadTrue_le_of_false M (s - 2) h4b
      refine ⟨by omega, by omega, by omega, ?_, ?_, ?_, ?_⟩
      · rw [List.length_drop]
        omega
      · intro i hi1 hi2
        rw [maskAt_drop]
        have hm := h3 (countLeadTrue M + i + 1) (by omega) (by omega)
        rwa [maskAt_cons_succ] at hm
      · right
        rw [maskAt_drop,
          show countLeadTrue M + (s - (1 + countLeadTrue M) - 1) = s - 2 by omega]
        exact h4b
      · rcases h5 with h5 | h5
        · left
          rw [List.length_drop]
          simp only [List.length_cons] at h5
          omega
        · right
          rw [maskAt_drop,
            show countLeadTrue M + (e - (1 + countLeadTrue M)) = e - 1 by omega]
          rw [show e = (e - 1) + 1 by omega, maskAt_cons_succ] at h5
          exact h5
  · rintro (⟨hs0, he⟩ | ⟨hs, he, k1, k2, k3, k4, k5⟩)
    · subst hs0
      subst he
      have hcl := countLeadTrue_le_length M
      refine ⟨by omega, by simp only [List.length_cons]; omega, ?_, Or.inl rfl, ?_⟩
      · intro i _ hi2
        cases i with
        | zero => rfl
        | succ j =>
            rw [maskAt_cons_succ]
            exact countLeadTrue_true M j (by omega)
      · rcases countLeadTrue_boundary M with hb | hb
        · left
          simp only [List.length_cons]
          omega
        · right
          rw [show 1 + countLeadTrue M = countLeadTrue M + 1 by omega, maskAt_cons_succ]
          exact hb
    · rw [List.length_drop] at k2
      have hcl := countLeadTrue_le_length M
      refine ⟨by omega, by simp only [List.length_cons]; omega, ?_, ?_, ?_⟩
      · intro i hi1 hi2
        rw [show i = (countLeadTrue M + (i - 1 - countLeadTrue M)) + 1 by omega,
          maskAt_cons_succ, ← maskAt_drop]
        exact k3 (i - 1 - countLeadTrue M) (by omega) (by omega)
      · right
        rcases k4 with k4 | k4
        · exfalso
          have h30 := k3 0 (by omega) (by omega)
          rw [maskAt_drop, Nat.add_zero] at h30
          rcases countLeadTrue_boundary M with hb | hb
          · rw [hb, maskAt_of_length_le M M.length (le_refl _)] at h30
            simp at h30
          · rw [h30] at hb
            simp at hb
        · by_cases hz : s - (1 + countLeadTrue M) = 0
          · exfalso
            have h30 := k3 0 (by omega) (by omega)
            rw [hz, Nat.zero_sub] at k4
            rw [h30] at k4
            simp at k4
          · rw [show s - 1 = (s - 2) + 1 by omega, maskAt_cons_succ,
              show s - 2 = countLeadTrue M + (s - (1 + countLeadTrue M) - 1) by omega,
              ← maskAt_drop]
            exact k4
      · rcases k5 with k5 | k5
        · left
          rw [List.length_drop] at k5
          simp only [List.length_cons]
          omega
        · right
          rw [show e = (countLeadTrue M + (e - (1 + countLeadTrue M))) + 1 by omega,
            maskAt_cons_succ, ← maskAt_drop]
          exact k5

lemma runsGo_none_char (M : List Bool) (s e : ℕ) :
    ((s, e) ∈ runsGo 0 none M) ↔ IsMaxRunExcl M s e := by
  have main : ∀ (n : ℕ) (M2 : List Bool), M2.length ≤ n → ∀ s2 e2,
      ((s2, e2) ∈ runsGo 0 none M2 ↔ IsMaxRunExcl M2 s2 e2) := by
    intro n
    induction n with
    | zero =>
        intro M2 hM2 s2 e2
        have hnil : M2 = [] := List.length_eq_zero.mp (by omega)
        subst hnil
        constructor
        · intro h
          simp [runsGo] at h
        · rintro ⟨h1, h2, _, _, _⟩
          simp only [List.length_nil] at h2
          omega
    | succ n ih =>
        intro M2 hM2 s2 e2
        cases M2 with
        | nil =>
            constructor
            · intro h
              simp [runsGo] at h
            · rintro ⟨h1, h2, _, _, _⟩
              simp only [List.length_nil] at h2
              omega
        | cons b rest =>
            simp only [List.length_cons] at hM2
            cases b
            · have hstep : runsGo 0 none (false :: rest) =
                  (runsGo 0 none rest).map (fun r => (r.1 + 1, r.2 + 1)) :=
                runsGo_none_shift 1 rest
              rw [hstep, mem_map_shift, isMaxRunExcl_false_cons]
              have ihr := ih rest (by omega) (s2 - 1) (e2 - 1)
              rw [ihr]
            · have hstep : runsGo 0 none (true :: rest) =
                  (0, 1 + countLeadTrue rest) ::
                    runsGo (1 + countLeadTrue rest) none (rest.drop (countLeadTrue rest)) :=
                runsGo_some rest 1 0
              rw [hstep, List.mem_cons,
                runsGo_none_shift (1 + countLeadTrue rest) (rest.drop (countLeadTrue rest)),
                mem_map_shift, isMaxRunExcl_true_cons]
              have ihr := ih (rest.drop (countLeadTrue rest))
                (by rw [List.length_drop]; omega)
                (s2 - (1 + countLeadTrue rest)) (e2 - (1 + countLeadTrue rest))
              rw [ihr]
              simp [Prod.mk.injEq]
  exact main M.length M (le_refl _) s e

lemma gapped_tail (r : ℕ × ℕ) (rs : List (ℕ × ℕ)) (h : GappedRanges (r :: rs)) :
    GappedRanges rs :=
  ⟨fun r2 hr2 => h.1 r2 (List.mem_cons_of_mem r hr2), (List.chain'_cons'.mp h.2).2⟩

lemma gapped_rest_lower :
    ∀ (rest : List (ℕ × ℕ)) (a b : ℕ), GappedRanges ((a, b) :: rest) →
      ∀ j ∈ expandRanges rest, b + 1 < j := by
  intro rest
  induction rest with
  | nil =>
      intro a b _ j hj
      simp [expandRanges] at hj
  | cons r2 rest2 ih =>
      intro a b hg j hj
      obtain ⟨a2, b2⟩ := r2
      have hlink : b + 1 < a2 := by
        have := hg.2
        rw [List.chain'_cons] at this
        exact this.1
      have ha2b2 : a2 ≤ b2 := hg.1 (a2, b2) (by simp)
      rw [expandRanges_cons] at hj
      rcases List.mem_append.mp hj with hj1 | hj2
      · rw [List.mem_range'_1] at hj1
        omega
      · have := ih a2 b2 (gapped_tail (a, b) _ hg) j hj2
        omega

lemma gapped_mem_char :
    ∀ (rs : List (ℕ × ℕ)), GappedRanges rs → ∀ s e,
      ((s, e) ∈ rs ↔ s ≤ e ∧ (∀ i, s ≤ i → i ≤ e → i ∈ expandRanges rs) ∧
        (s = 0 ∨ (s - 1) ∉ expandRanges rs) ∧ (e + 1) ∉ expandRanges rs) := by
  intro rs
  induction rs with
  | nil =>
      intro _ s e
      constructor
      · intro h; simp at h
      · rintro ⟨h1, h2, _, _⟩
        have := h2 s (le_refl s) h1
        simp [expandRanges] at this
  | cons r rest ih =>
      intro hg s e
      obtain ⟨a, b⟩ := r
      have hab : a ≤ b := hg.1 (a, b) (by simp)
      have hlow := gapped_rest_lower rest a b hg
      have hg2 := gapped_tail (a, b) rest hg
      have ihr := ih hg2
      have hmemexp : ∀ i, i ∈ expandRanges ((a, b) :: rest) ↔
          ((a ≤ i ∧ i ≤ b) ∨ i ∈ expandRanges rest) := by
        intro i
        rw [expandRanges_cons, List.mem_append, List.mem_range'_1]
        constructor
        · rintro (⟨q1, q2⟩ | q) <;> [left; right]
          · exact ⟨q1, by omega⟩
          · exact q
        · rintro (⟨q1, q2⟩ | q) <;> [left; right]
          · exact ⟨q1, by omega⟩
          · exact q
      constructor
      · intro hmem
        rcases List.mem_cons.mp hmem with hhead | htail
        · rw [Prod.mk.injEq] at hhead
          obtain ⟨rfl, rfl⟩ := hhead
          refine ⟨hab, ?_, ?_, ?_⟩
          · intro i hi1 hi2
            exact (hmemexp i).mpr (Or.inl ⟨hi1, hi2⟩)
          · by_cases ha0 : s = 0
            · left; exact ha0
            · right
              intro hc
              rcases (hmemexp _).mp hc with ⟨q1, _⟩ | q
              · omega
              · have := hlow _ q
                omega
          · intro hc
            rcases (hmemexp _).mp hc with ⟨_, q2⟩ | q
            · omega
            · have := hlow _ q
              omega
        · obtain ⟨h1, h2, h3, h4⟩ := (ihr s e).mp htail
          have hs_in : s ∈ expandRanges rest := h2 s (le_refl s) h1
          have hs_gt : b + 1 < s := hlow s hs_in
          refine ⟨h1, ?_, ?_, ?_⟩
          · intro i hi1 hi2
            exact (hmemexp i).mpr (Or.inr (h2 i hi1 hi2))
          · right
            intro hc
            rcases (hmemexp _).mp hc with ⟨_, q2⟩ | q
            · omega
            · rcases h3 with h3 | h3
              · omega
              · exact h3 q
          · intro hc
            rcases (hmemexp _).mp hc with ⟨_, q2⟩ | q
            · omega
            · exact h4 q
      · rintro ⟨h1, h2, h3, h4⟩
        rcases (hmemexp s).mp (h2 s (le_refl s) h1) with ⟨ha1, ha2⟩ | hs_rest
        · have hsa : s = a := by
            by_contra hc
            have h1m : (s - 1) ∈ expandRanges ((a, b) :: rest) :=
              (hmemexp _).mpr (Or.inl ⟨by omega, by omega⟩)
            rcases h3 with h3 | h3
            · omega
            · exact h3 h1m
          have heb : e = b := by
            by_contra hc
            by_cases hlt : e < b
            · exact h4 ((hmemexp _).mpr (Or.inl ⟨by omega, by omega⟩))
            · have hbmem := h2 (b + 1) (by omega) (by omega)
              rcases (hmemexp _).mp hbmem with ⟨_, q2⟩ | q
              · omega
              · have := hlow _ q
                omega
          rw [hsa, heb]
          exact List.mem_cons_self _ _
        · have hs_gt : b + 1 < s := hlow s hs_rest
          apply List.mem_cons_of_mem
          apply (ihr s e).mpr
          refine ⟨h1, ?_, ?_, ?_⟩
          · intro i hi1 hi2
            rcases (hmemexp i).mp (h2 i hi1 hi2) with ⟨_, hib⟩ | hir
            · exact absurd hib (by omega)
            · exact hir
          · rcases h3 with h3 | h3
            · left; exact h3
            · right
              intro hc
              exact h3 ((hmemexp _).mpr (Or.inr hc))
          · intro hc
            exact h4 ((hmemexp _).mpr (Or.inr hc))

lemma mergeGo_expand :
    ∀ (xs : List ℕ) (start prev : ℕ), start ≤ prev → List.Chain (· < ·) prev xs →
      expandRanges (mergeGo start prev xs) = List.range' start (prev + 1 - start) ++ xs := by
  intro xs
  induction xs with
  | nil =>
      intro start prev _ _
      simp [mergeGo, expandRanges]
  | cons idx rest ih =>
      intro start prev hsp hch
      rw [List.chain_cons] at hch
      obtain ⟨hpi, hrest⟩ := hch
      rw [mergeGo]
      split
      · rename_i heq
        rw [ih start idx (by omega) hrest, heq,
          show prev + 1 + 1 - start = (prev + 1 - start) + 1 by omega,
          List.range'_1_concat,
          show start + (prev + 1 - start) = prev + 1 by omega]
        simp [List.append_assoc]
      · rename_i hne
        rw [expandRanges_cons]
        dsimp only
        rw [ih idx idx (le_refl idx) hrest, show idx + 1 - idx = 1 by omega]
        rfl

lemma mergeAdjacentBins_sorted_char (L : List ℕ) (k : ℕ)
    (hL : List.Chain' (· < ·) L) (s e : ℕ) :
    ((s, e) ∈ mergeAdjacentBins L k) ↔
      (s ≤ e ∧ (∀ i, s ≤ i → i ≤ e → i ∈ L) ∧ (s = 0 ∨ (s - 1) ∉ L) ∧ (e + 1) ∉ L) := by
  cases L with
  | nil =>
      constructor
      · intro h; simp [mergeAdjacentBins] at h
      · rintro ⟨h1, h2, _, _⟩
        exact absurd (h2 s (le_refl s) h1) (List.not_mem_nil s)
  | cons x xs =>
      have hch : List.Chain (· < ·) x xs := hL
      have hg : GappedRanges (mergeGo x x xs) := mergeGo_gapped xs x x (le_refl x) hch
      have hexp : expandRanges (mergeGo x x xs) = x :: xs := by
        rw [mergeGo_expand xs x x (le_refl x) hch, show x + 1 - x = 1 by omega]
        rfl
      show ((s, e) ∈ mergeGo x x xs) ↔ _
      rw [gapped_mem_char (mergeGo x x xs) hg s e, hexp]

lemma identifyElevatedBins_mem (obs : List ℝ) (E : ℝ) (i : ℕ) :
    i ∈ identifyElevatedBins obs E ↔
      (i < obs.length ∧ E + Real.sqrt E < obs.getD i 0) := by
  simp [identifyElevatedBins, List.mem_filter, List.mem_range, decide_eq_true_eq]

lemma identifyElevatedBins_chain (obs : List ℝ) (E : ℝ) :
    List.Chain' (· < ·) (identifyElevatedBins obs E) :=
  List.chain'_iff_pairwise.mpr ((List.pairwise_lt_range obs.length).filter _)

lemma elevatedMaskB1_length (obs : List ℝ) (k n : ℕ) (hk : k = obs.length) :
    (elevatedMaskB1 obs k n).length = k := by
  simp [elevatedMaskB1, hk]

lemma elevatedMaskB1_at (obs : List ℝ) (k n : ℕ) (hk : k = obs.length) (i : ℕ)
    (hi : i < k) :
    maskAt (elevatedMaskB1 obs k n) i =
      decide ((n : ℝ) / k + Real.sqrt ((n : ℝ) / k) < obs.getD i 0) := by
  have hlen : i < (elevatedMaskB1 obs k n).length := by
    rw [elevatedMaskB1_length obs k n hk]
    exact hi
  have hobs : i < obs.length := by omega
  have htake : i < (obs.take k).length := by
    simp [hk]
    omega
  unfold maskAt
  rw [List.getD_eq_getElem _ false hlen]
  unfold elevatedMaskB1
  rw [List.getElem_map, List.getElem_take]
  rw [List.getD_eq_getElem obs 0 hobs]

/-- C5: bin `i` is elevated iff `obs[i] > n/k + sqrt (n/k)`; both detector
implementations return exactly the maximal runs of consecutive elevated bins
with purely linear adjacency (`merge_adjacent_bins` with inclusive ends,
`find_elevated_intervals` with exclusive ends); and bins `k-1` and `0` are
merged into a single interval only in the degenerate case that every bin of
the mask is elevated. -/
theorem c5_elevated_maximal_runs (obs : List ℝ) (n k : ℕ) (hk : k = obs.length) :
    (∀ i, i ∈ identifyElevatedBins obs ((n : ℝ) / k) ↔
      (i < k ∧ (n : ℝ) / k + Real.sqrt ((n : ℝ) / k) < obs.getD i 0)) ∧
    (∀ s e, ((s, e) ∈ mergeAdjacentBins (identifyElevatedBins obs ((n : ℝ) / k)) k) ↔
      IsMaxRunIncl (fun i => (n : ℝ) / k + Real.sqrt ((n : ℝ) / k) < obs.getD i 0) k s e) ∧
    (∀ s e, ((s, e) ∈ runsGo 0 none (elevatedMaskB1 obs k n)) ↔
      (s < e ∧ e ≤ k ∧
        (∀ i, s ≤ i → i < e → (n : ℝ) / k + Real.sqrt ((n : ℝ) / k) < obs.getD i 0) ∧
        (s = 0 ∨ ¬((n : ℝ) / k + Real.sqrt ((n : ℝ) / k) < obs.getD (s - 1) 0)) ∧
        (e = k ∨ ¬((n : ℝ) / k + Real.sqrt ((n : ℝ) / k) < obs.getD e 0)))) ∧
    (∀ s e, (s, e) ∈ mergeAdjacentBins (identifyElevatedBins obs ((n : ℝ) / k)) k →
      s = 0 → e + 1 = k →
      ∀ i, i < k → (n : ℝ) / k + Real.sqrt ((n : ℝ) / k) < obs.getD i 0) := by
  have hmem : ∀ i, i ∈ identifyElevatedBins obs ((n : ℝ) / k) ↔
      (i < k ∧ (n : ℝ) / k + Real.sqrt ((n : ℝ) / k) < obs.getD i 0) := by
    intro i
    rw [identifyElevatedBins_mem, ← hk]
  have hmerge : ∀ s e,
      ((s, e) ∈ mergeAdjacentBins (identifyElevatedBins obs ((n : ℝ) / k)) k) ↔
      IsMaxRunIncl (fun i => (n : ℝ) / k + Real.sqrt ((n : ℝ) / k) < obs.getD i 0) k s e := by
    intro s e
    rw [mergeAdjacentBins_sorted_char _ k (identifyElevatedBins_chain obs _) s e]
    unfold IsMaxRunIncl
    constructor
    · rintro ⟨h1, h2, h3, h4⟩
      have hek : e < k := ((hmem e).mp (h2 e h1 (le_refl e))).1
      refine ⟨h1, hek, fun i hi1 hi2 => ((hmem i).mp (h2 i hi1 hi2)).2, ?_, ?_⟩
      · rcases h3 with h3 | h3
        · left; exact h3
        · right
          intro hP
          exact h3 ((hmem (s - 1)).mpr ⟨by omega, hP⟩)
      · by_cases heq : e + 1 = k
        · left; exact heq
        · right
          intro hP
          exact h4 ((hmem (e + 1)).mpr ⟨by omega, hP⟩)
    · rintro ⟨h1, h2, h3, h4, h5⟩
      refine ⟨h1, fun i hi1 hi2 => (hmem i).mpr ⟨by omega, h3 i hi1 hi2⟩, ?_, ?_⟩
      · rcases h4 with h4 | h4
        · left; exact h4
        · right
          intro hc
          exact h4 ((hmem _).mp hc).2
      · intro hc
        obtain ⟨hlt, hP⟩ := (hmem _).mp hc
        rcases h5 with h5 | h5
        · omega
        · exact h5 hP
  refine ⟨hmem, hmerge, ?_, ?_⟩
  · intro s e
    rw [runsGo_none_char]
    unfold IsMaxRunExcl
    rw [elevatedMaskB1_length obs k n hk]
    constructor
    · rintro ⟨h1, h2, h3, h4, h5⟩
      refine ⟨h1, h2, ?_, ?_, ?_⟩
      · intro i hi1 hi2
        have := h3 i hi1 hi2
        rw [elevatedMaskB1_at obs k n hk i (by omega)] at this
        exact decide_eq_true_eq.mp this
      · rcases h4 with h4 | h4
        · left; exact h4
        · by_cases hs0 : s = 0
          · left; exact hs0
          · right
            rw [elevatedMaskB1_at obs k n hk (s - 1) (by omega)] at h4
            intro hP
            rw [decide_eq_true hP] at h4
            simp at h4
      · rcases h5 with h5 | h5
        · left; exact h5
        · by_cases hek : e = k
          · left; exact hek
          · right
            rw [elevatedMaskB1_at obs k n hk e (by omega)] at h5
            intro hP
            rw [decide_eq_true hP] at h5
            simp at h5
    · rintro ⟨h1, h2, h3, h4, h5⟩
      refine ⟨h1, h2, ?_, ?_, ?_⟩
      · intro i hi1 hi2
        rw [elevatedMaskB1_at obs k n hk i (by omega)]
        exact decide_eq_true (h3 i hi1 hi2)
      · rcases h4 with h4 | h4
        · left; exact h4
        · by_cases hs0 : s = 0
          · left; exact hs0
          · right
            rw [elevatedMaskB1_at obs k n hk (s - 1) (by omega)]
            exact decide_eq_false h4
      · rcases h5 with h5 | h5
        · left; exact h5
        · by_cases hek : e = k
          · left; exact hek
          · right
            rw [elevatedMaskB1_at obs k n hk e (by omega)]
            exact decide_eq_false h5
  · intro s e hmem2 hs he
    obtain ⟨_, _, h3, _, _⟩ := (hmerge s e).mp hmem2
    intro i hik
    exact h3 i (by omega) (by omega)

/-- Witness for C5 at `obs = [3, 0, 3]`, `n = 3`, `k = 3`: the threshold is
`1 + sqrt 1 = 2`, bins 0 and 2 are elevated, and bin 0 is reported. -/
theorem c5_elevated_maximal_runs_witness :
    ((3 : ℕ) = ([3, 0, 3] : List ℝ).length) ∧
    (0 ∈ identifyElevatedBins [3, 0, 3] (((3 : ℕ) : ℝ) / ((3 : ℕ) : ℝ))) := by
  have hk : (3 : ℕ) = ([3, 0, 3] : List ℝ).length := by simp
  refine ⟨hk, ?_⟩
  apply ((c5_elevated_maximal_runs [3, 0, 3] 3 3 hk).1 0).mpr
  refine ⟨by norm_num, ?_⟩
  rw [show (((3 : ℕ) : ℝ) / ((3 : ℕ) : ℝ)) = 1 by norm_num, Real.sqrt_one]
  rw [show ([3, 0, 3] : List ℝ).getD 0 0 = 3 from rfl]
  norm_num
